import Mathlib

/-!
Verification of `index_parser/cli.py` (carbonarok/index-parser).

The development shallowly embeds the program: pure URL manipulation is
modelled at the character-list level following the CPython `urllib.parse`
algorithms that `cli.py` calls (`urlparse`, `urlunparse`, `urljoin`); the
crawl bookkeeping of `get_all_files` is modelled as a fold over the list of
anchor `href` attributes threading the `visited_urls` set; `download_file`
is modelled as a function on an abstract file-system state, with the HTTP
response supplied as data (the transport is an external collaborator).
OS-level failures (e.g. `mkdir` on an empty path) and the `ValueError`
raised by `urlsplit` on mismatched IPv6 brackets are outside the model:
no claim depends on them.
-/

namespace IndexParser

/-! ### Python string primitives, at the `List Char` level -/

/-- ASCII lower-casing of one character, as `str.lower` acts on ASCII
(codes 65-90 are `A`-`Z`, shifted by 32 to `a`-`z`). -/
def lowerChar (c : Char) : Char :=
  if 65 ≤ c.toNat ∧ c.toNat ≤ 90 then Char.ofNat (c.toNat + 32) else c

/-- `c.isascii() and c.isalpha()` for the scheme head check
(codes 97-122 are `a`-`z`, codes 65-90 are `A`-`Z`). -/
def isAlphaAscii (c : Char) : Bool :=
  (97 ≤ c.toNat && c.toNat ≤ 122) || (65 ≤ c.toNat && c.toNat ≤ 90)

/-- Membership in `urllib.parse.scheme_chars`: ASCII letters, digits
(codes 48-57), and `+` (43), `-` (45), `.` (46). -/
def isSchemeChar (c : Char) : Bool :=
  isAlphaAscii c || (48 ≤ c.toNat && c.toNat ≤ 57) ||
    c.toNat = 43 || c.toNat = 45 || c.toNat = 46

/-- Split a list at the first occurrence of `c` (Python `s.split(c, 1)`),
returning `none` when `c` does not occur. -/
def splitFirst (c : Char) : List Char → Option (List Char × List Char)
  | [] => none
  | x :: xs =>
    if x = c then some ([], xs)
    else (splitFirst c xs).map (fun p => (x :: p.1, p.2))

/-- Split a list at the last occurrence of `'/'` (so that the second
component is slash-free), `none` when there is no `'/'`. -/
def splitLastSlash : List Char → Option (List Char × List Char)
  | [] => none
  | c :: cs =>
    match splitLastSlash cs with
    | some p => some (c :: p.1, p.2)
    | none => if c = '/' then some ([], cs) else none

/-- The netloc delimiters of `urllib.parse._splitnetloc`. -/
def isDelim (c : Char) : Bool := c = '/' || c = '?' || c = '#'

/-- `_splitnetloc`: take characters up to the first of `/?#`. -/
def takeUntilDelims : List Char → List Char × List Char
  | [] => ([], [])
  | c :: cs =>
    if isDelim c then ([], c :: cs)
    else
      let t := takeUntilDelims cs
      (c :: t.1, t.2)

/-- Python `str.split(sep)` for a one-character separator: always returns a
nonempty list of (possibly empty) segments. -/
def splitOnChar (c : Char) : List Char → List (List Char)
  | [] => [[]]
  | x :: xs =>
    let r := splitOnChar c xs
    if x = c then [] :: r
    else
      match r with
      | h :: t => (x :: h) :: t
      | [] => [[x]]

/-- Python substring membership `needle in haystack`. -/
def pyInStr (needle : List Char) : List Char → Bool
  | [] => needle.isEmpty
  | c :: rest => needle.isPrefixOf (c :: rest) || pyInStr needle rest

/-- Python `s.endswith(t)` on character lists. -/
def pyEndsWithL (s t : List Char) : Bool := t.isSuffixOf s

/-- Python `s.endswith(t)` on strings. -/
def pyEndsWith (s t : String) : Bool := t.toList.isSuffixOf s.toList

/-- Python `s.startswith(t)` on strings. -/
def pyStartsWith (s t : String) : Bool := t.toList.isPrefixOf s.toList

/-! ### Model of `urllib.parse` (the stdlib calls made by `cli.py`)

These definitions transcribe the CPython algorithms for `urlsplit`,
`urlparse`, `urlunsplit`, `urlunparse` and `urljoin`, which `cli.py`
imports; they are the semantics of `normalize_url`, of the link
resolution in `get_all_files`, and of the path mapping in
`download_file`. -/

/-- Result of `urlsplit`. -/
structure SplitResult where
  scheme : List Char
  netloc : List Char
  path : List Char
  query : List Char
  fragment : List Char
  deriving DecidableEq, Repr

/-- Result of `urlparse` (adds the `params` component). -/
structure ParseResult where
  scheme : List Char
  netloc : List Char
  path : List Char
  params : List Char
  query : List Char
  fragment : List Char
  deriving DecidableEq, Repr

/-- The scheme-shape test of `urlsplit`: nonempty, ASCII-alpha head, the
rest drawn from `scheme_chars`. -/
def validSchemeSplit (pre : List Char) : Bool :=
  match pre with
  | [] => false
  | c :: cs => isAlphaAscii c && cs.all isSchemeChar

/-- The scheme-splitting stage of `urlsplit`: split at the first `':'` when
the part before it is a well-formed scheme, lower-casing it; otherwise the
given default scheme is used and the input is left whole. -/
def pySchemeSplit (url default : List Char) : List Char × List Char :=
  match splitFirst ':' url with
  | some p => if validSchemeSplit p.1 then (p.1.map lowerChar, p.2) else (default, url)
  | none => (default, url)

/-- The netloc stage of `urlsplit`: when the rest starts with `//`
(`url[:2] == '//'`), the netloc extends from index 2 to the first of
`/?#`. -/
def pyNetlocSplit (r : List Char) : List Char × List Char :=
  if r.take 2 = ['/', '/'] then takeUntilDelims (r.drop 2) else ([], r)

/-- Fragment removal: split at the first `'#'`. -/
def pyCutFragment (r : List Char) : List Char × List Char :=
  match splitFirst '#' r with
  | some p => p
  | none => (r, [])

/-- Query removal: split at the first `'?'`. -/
def pyCutQuery (r : List Char) : List Char × List Char :=
  match splitFirst '?' r with
  | some p => p
  | none => (r, [])

/-- `urllib.parse.urlsplit(url, scheme=default)`. -/
def urlsplitL (url default : List Char) : SplitResult :=
  let s1 := pySchemeSplit url default
  let s2 := pyNetlocSplit s1.2
  let s3 := pyCutFragment s2.2
  let s4 := pyCutQuery s3.1
  ⟨s1.1, s2.1, s4.1, s4.2, s3.2⟩

/-- `urllib.parse.uses_params`. -/
def uses_params : List (List Char) :=
  [[], "ftp".toList, "hdl".toList, "prospero".toList, "http".toList, "imap".toList,
   "https".toList, "shttp".toList, "rtsp".toList, "rtspu".toList, "sip".toList,
   "sips".toList, "mms".toList, "sftp".toList, "tel".toList]

/-- `urllib.parse.uses_relative`. -/
def uses_relative : List (List Char) :=
  [[], "ftp".toList, "http".toList, "gopher".toList, "nntp".toList, "imap".toList,
   "wais".toList, "file".toList, "https".toList, "shttp".toList, "mms".toList,
   "prospero".toList, "rtsp".toList, "rtspu".toList, "sftp".toList, "svn".toList,
   "svn+ssh".toList, "ws".toList, "wss".toList]

/-- `urllib.parse.uses_netloc`. -/
def uses_netloc : List (List Char) :=
  [[], "ftp".toList, "http".toList, "gopher".toList, "nntp".toList, "telnet".toList,
   "imap".toList, "wais".toList, "file".toList, "mms".toList, "https".toList,
   "shttp".toList, "snews".toList, "prospero".toList, "rtsp".toList, "rtspu".toList,
   "rsync".toList, "svn".toList, "svn+ssh".toList, "sftp".toList, "nfs".toList,
   "git".toList, "git+ssh".toList, "ws".toList, "wss".toList, "itms-services".toList]

/-- `urllib.parse._splitparams`: split the params off the last path
segment (the first `';'` at or after the last `'/'`). -/
def splitparams (p : List Char) : List Char × List Char :=
  match splitLastSlash p with
  | some bp =>
    match splitFirst ';' bp.2 with
    | some ab => (bp.1 ++ '/' :: ab.1, ab.2)
    | none => (p, [])
  | none =>
    match splitFirst ';' p with
    | some ab => ab
    | none => (p, [])

/-- `urllib.parse.urlparse(url, scheme=default)`. -/
def urlparseL (url default : List Char) : ParseResult :=
  let s := urlsplitL url default
  if s.scheme ∈ uses_params ∧ ';' ∈ s.path then
    let pp := splitparams s.path
    ⟨s.scheme, s.netloc, pp.1, pp.2, s.query, s.fragment⟩
  else
    ⟨s.scheme, s.netloc, s.path, [], s.query, s.fragment⟩

/-- `urllib.parse.urlunsplit`. -/
def urlunsplitL (scheme netloc path query fragment : List Char) : List Char :=
  let url :=
    if netloc ≠ [] ∨ (path ≠ [] ∧ path.take 2 = ['/', '/']) then
      let url2 := if path ≠ [] ∧ path.take 1 ≠ ['/'] then '/' :: path else path
      '/' :: '/' :: (netloc ++ url2)
    else path
  let url := if scheme ≠ [] then scheme ++ ':' :: url else url
  let url := if query ≠ [] then url ++ '?' :: query else url
  if fragment ≠ [] then url ++ '#' :: fragment else url

/-- `urllib.parse.urlunparse`. -/
def urlunparseL (r : ParseResult) : List Char :=
  let u := if r.params ≠ [] then r.path ++ ';' :: r.params else r.path
  urlunsplitL r.scheme r.netloc u r.query r.fragment

/-- `normalize_url` of `cli.py` (lines 22-27): reassemble the parse with
`params`, `query` and `fragment` cleared. -/
def normalize_urlL (u : List Char) : List Char :=
  let p := urlparseL u []
  urlunparseL ⟨p.scheme, p.netloc, p.path, [], [], []⟩

/-- `normalize_url` on strings. -/
def normalize_url (u : String) : String := (normalize_urlL u.toList).asString

/-- The `segments[1:-1] = filter(None, segments[1:-1])` step of `urljoin`:
drop empty segments, keeping the first and last elements. -/
def filterMiddle (segs : List (List Char)) : List (List Char) :=
  match segs with
  | [] => []
  | [a] => [a]
  | a :: rest =>
    match rest.getLast? with
    | some lastSeg => a :: (rest.dropLast.filter (fun s => s ≠ []) ++ [lastSeg])
    | none => [a]

/-- The dot-segment resolution loop of `urljoin` (`'..'` pops, `'.'` is
dropped, popping an empty stack is a no-op). -/
def resolveSegs (acc : List (List Char)) : List (List Char) → List (List Char)
  | [] => acc
  | s :: rest =>
    if s = ['.', '.'] then resolveSegs acc.dropLast rest
    else if s = ['.'] then resolveSegs acc rest
    else resolveSegs (acc ++ [s]) rest

/-- `urllib.parse.urljoin`. -/
def urljoinL (base url : List Char) : List Char :=
  if base = [] then url
  else if url = [] then base
  else
    let b := urlparseL base []
    let r := urlparseL url b.scheme
    if r.scheme ≠ b.scheme ∨ r.scheme ∉ uses_relative then url
    else if r.scheme ∈ uses_netloc ∧ r.netloc ≠ [] then
      urlunparseL r
    else
      let netloc := if r.scheme ∈ uses_netloc then b.netloc else r.netloc
      if r.path = [] ∧ r.params = [] then
        let q := if r.query = [] then b.query else r.query
        urlunparseL ⟨r.scheme, netloc, b.path, b.params, q, r.fragment⟩
      else
        let base_parts0 := splitOnChar '/' b.path
        let base_parts := if base_parts0.getLast? = some [] then base_parts0 else base_parts0.dropLast
        let segments :=
          if r.path.take 1 = ['/'] then splitOnChar '/' r.path
          else filterMiddle (base_parts ++ splitOnChar '/' r.path)
        let res0 := resolveSegs [] segments
        let res := if segments.getLast? = some ['.'] ∨ segments.getLast? = some ['.', '.'] then res0 ++ [[]] else res0
        let joined := List.intercalate ['/'] res
        let path := if joined = [] then ['/'] else joined
        urlunparseL ⟨r.scheme, netloc, path, r.params, r.query, r.fragment⟩

/-- `urljoin` on strings. -/
def urljoin (base url : String) : String := (urljoinL base.toList url.toList).asString

/-! ### Model of `get_all_files` (cli.py lines 38-63)

The HTML parser and the HTTP client are external collaborators: the model
receives, in page order, the `href` attribute of each anchor element of the
fetched page (`None` when the attribute is absent).  The process-wide
`visited_urls` set is threaded explicitly. -/

/-- The running state of one `get_all_files` call: the `urls` and `dirs`
accumulators together with the shared `visited_urls` set. -/
structure GafState where
  urls : Finset String
  dirs : Finset String
  visited : Finset String

/-- The netloc of the parse of a URL string (`urlparse(u).netloc`). -/
def pyNetlocOf (u : String) : List Char := (urlparseL u.toList []).netloc

/-- The path of the parse of a URL string (`urlparse(u).path`). -/
def pyPathOf (u : String) : List Char := (urlparseL u.toList []).path

/-- The `elif` condition of cli.py lines 59-61: keep the file unless a
configured suffix matches or it is a `.php` link without the override. -/
def keepFile (href : String) (suffixes_to_ignore : List String) (force_download_php : Bool) : Bool :=
  !(suffixes_to_ignore.any (fun sfx => pyEndsWith href sfx)) &&
    !(pyEndsWith href ".php" && !force_download_php)

/-- One iteration of the anchor loop of `get_all_files` (cli.py lines
48-62). -/
def gafStep (url : String) (suffixes_to_ignore : List String) (force_download_php : Bool)
    (st : GafState) (anchor : Option String) : GafState :=
  match anchor with
  | none => st
  | some href0 =>
    if href0 = "" ∨ pyStartsWith href0 "/" then st
    else
      let href := normalize_url (urljoin url href0)
      if pyInStr (pyNetlocOf url) (pyNetlocOf href) = false ∨ href ∈ st.visited then st
      else
        let visited2 := insert href st.visited
        if pyEndsWithL (pyPathOf href) ['/'] then
          ⟨st.urls, insert href st.dirs, visited2⟩
        else if keepFile href suffixes_to_ignore force_download_php then
          ⟨insert href st.urls, st.dirs, visited2⟩
        else
          ⟨st.urls, st.dirs, visited2⟩

/-- `get_all_files(url, suffixes_to_ignore, force_download_php)` given the
anchors of the fetched page and the current `visited_urls` set.  The
returned state carries the `urls` and `dirs` result sets and the updated
`visited_urls`. -/
def get_all_files (url : String) (anchors : List (Option String))
    (suffixes_to_ignore : List String) (force_download_php : Bool)
    (visited : Finset String) : GafState :=
  anchors.foldl (gafStep url suffixes_to_ignore force_download_php) ⟨∅, ∅, visited⟩

/-- One index page fetched during a crawl: its URL, its anchors, and the
configuration of the `get_all_files` call made on it. -/
structure Page where
  url : String
  anchors : List (Option String)
  suffixes_to_ignore : List String
  force_download_php : Bool

/-- A crawl: a sequence of `get_all_files` calls sharing `visited_urls`,
returning each call's `(files, dirs)` output and the final ledger. -/
def crawl : List Page → Finset String → List (Finset String × Finset String) × Finset String
  | [], v => ([], v)
  | pg :: rest, v =>
    let st := get_all_files pg.url pg.anchors pg.suffixes_to_ignore pg.force_download_php v
    let r := crawl rest st.visited
    ((st.urls, st.dirs) :: r.1, r.2)

/-- All output sets of a crawl, in order: files then dirs of each call. -/
def crawlOutputs (pages : List Page) (v : Finset String) : List (Finset String) :=
  (crawl pages v).1.flatMap (fun o => [o.1, o.2])

/-! ### Model of `download_file` (cli.py lines 66-85) and the per-file
logging of `download_from_index` (lines 96-102)

The file system is abstracted as the set of existing directories plus a
map from paths to file contents; the HTTP response (status code and the
chunk sequence that `iter_content` yields) is an input. -/

/-- Python `str.lstrip("/")`: drop every leading `'/'`. -/
def lstripSlashL : List Char → List Char
  | [] => []
  | c :: cs => if c = '/' then lstripSlashL cs else c :: cs

/-- Python `str.rstrip("/")`. -/
def rstripSlashL (l : List Char) : List Char := (lstripSlashL l.reverse).reverse

/-- `posixpath.join` for two components. -/
def pyJoin2 (a b : String) : String :=
  if pyStartsWith b "/" then b
  else if a = "" ∨ pyEndsWith a "/" then a ++ b
  else a ++ "/" ++ b

/-- `posixpath.dirname`: everything up to the last `'/'`, with trailing
slashes stripped unless the head is all slashes. -/
def dirnameL (p : List Char) : List Char :=
  match splitLastSlash p with
  | none => []
  | some bp =>
    let head := bp.1 ++ ['/']
    if head.all (fun c => c = '/') then head else rstripSlashL head

/-- `os.path.dirname` on strings. -/
def pyDirname (p : String) : String := (dirnameL p.toList).asString

/-- The chain of directories `os.makedirs(p)` creates: `p` and its
`dirname` ancestors, stopping at the empty path or a fixpoint; the fuel
argument bounds the iteration. -/
def dirChain : Nat → List Char → List (List Char)
  | 0, _ => []
  | n + 1, p =>
    if p = [] then []
    else p :: (if dirnameL p = p then [] else dirChain n (dirnameL p))

/-- The directories created by `os.makedirs(p, exist_ok=True)`. -/
def makedirsSet (p : String) : Finset String :=
  ((dirChain (p.toList.length + 1) p.toList).map List.asString).toFinset

/-- Abstract file-system state: existing directories and file contents. -/
structure FsState where
  dirs : Finset String
  files : String → Option (List Nat)

/-- `os.makedirs(p, exist_ok=True)` on the abstract state. -/
def fsMakedirs (fs : FsState) (p : String) : FsState :=
  { fs with dirs := fs.dirs ∪ makedirsSet p }

/-- An HTTP response as `download_file` observes it: the status code and
the chunk sequence yielded by `iter_content`. -/
structure HttpResponse where
  status_code : Nat
  chunks : List (List Nat)

/-- Outcome of one `download_file` call. -/
inductive DownloadResult where
  | forbidden
  | skippedDirAtPath (path : String)
  | written (path : String) (content : List Nat)
  deriving DecidableEq, Repr

/-- The local path mapping of cli.py lines 70-71:
`os.path.join(root_download_path, parsed_url.netloc, parsed_url.path.lstrip("/"))`. -/
def local_file_path (url root_download_path : String) : String :=
  let parsed := urlparseL url.toList []
  pyJoin2 (pyJoin2 root_download_path parsed.netloc.asString) (lstripSlashL parsed.path).asString

/-- The bytes written by the chunk loop of cli.py lines 83-85: empty chunks
are skipped, the rest are concatenated. -/
def streamContent (chunks : List (List Nat)) : List Nat :=
  (chunks.filter (fun c => c ≠ [])).flatten

/-- `download_file(url, root_download_path)` (cli.py lines 66-85) on the
abstract file system, with the response as input. -/
def download_file (url root_download_path : String) (response : HttpResponse)
    (fs : FsState) : FsState × DownloadResult :=
  let file_path := local_file_path url root_download_path
  let fs1 := fsMakedirs fs (pyDirname file_path)
  if response.status_code = 403 then (fs1, .forbidden)
  else if file_path ∈ fs1.dirs then (fs1, .skippedDirAtPath file_path)
  else
    ({ fs1 with
        files := fun q =>
          if q = file_path then some (streamContent response.chunks) else fs1.files q },
     .written file_path (streamContent response.chunks))

/-- The per-file completion handling of `download_from_index` (cli.py lines
96-102): in this exception-free model `future.result()` always returns, so
the handler always logs the info line `Downloaded <url>`. -/
def download_and_log (url root_download_path : String) (response : HttpResponse)
    (fs : FsState) : FsState × String :=
  let r := download_file url root_download_path response fs
  (r.1, "Downloaded " ++ url)

/-! ### Proof-support definitions -/

/-- Well-formedness of the loop state: both result sets are inside the
ledger and they are disjoint. -/
def GafWf (st : GafState) : Prop :=
  st.urls ⊆ st.visited ∧ st.dirs ⊆ st.visited ∧ Disjoint st.urls st.dirs

/-- Failure of the scheme-splitting stage: no candidate split at the first
colon has a well-formed scheme before it. -/
def schemeSplitFails (u : List Char) : Prop :=
  ∀ pr, splitFirst ':' u = some pr → validSchemeSplit pr.1 = false

/-- No params would be split off this path on a re-parse: no `';'` occurs
in the segment after the last `'/'` (nor anywhere, when there is no
slash). -/
def paramsFree (p : List Char) : Prop :=
  match splitLastSlash p with
  | some bp => ';' ∉ bp.2
  | none => ';' ∉ p

/-- The shape invariant of the `(scheme, netloc, path)` triple produced by
`urlparse(u, '')`: exactly what makes `urlunsplit` re-parse it
unchanged. -/
structure NormInv (s n p : List Char) : Prop where
  scheme_ok : s = [] ∨ (validSchemeSplit s = true ∧ s.map lowerChar = s)
  scheme_empty_ok : s = [] → schemeSplitFails p
  netloc_clean : ∀ c ∈ n, isDelim c = false
  path_no_q : '?' ∉ p
  path_no_f : '#' ∉ p
  netloc_path : n ≠ [] → p = [] ∨ ∃ t, p = '/' :: t
  params_ok : s ∈ uses_params → paramsFree p

/-! ### Sanity checks on concrete inputs -/

example : normalize_url "http://h/p?q=1#f" = "http://h/p" := by decide
example : normalize_url "http://h/p" = "http://h/p" := by decide
example : urljoin "http://h/" "a.mp4" = "http://h/a.mp4" := by decide
example : urljoin "http://h/x/" "sub/" = "http://h/x/sub/" := by decide
example : urljoin "x" "y" = "y" := by decide
example : normalize_url "y" = "y" := by decide

example :
    local_file_path "http://example.com/a/b.txt" "/tmp/out" = "/tmp/out/example.com/a/b.txt" := by
  decide

example :
    (get_all_files "http://h/" [some "a.mp4"] [".mp4"] false ∅).urls = ∅ ∧
      (get_all_files "http://h/" [some "a.mp4"] [".mp4"] false ∅).dirs = ∅ ∧
      "http://h/a.mp4" ∈ (get_all_files "http://h/" [some "a.mp4"] [".mp4"] false ∅).visited := by
  decide

example :
    (get_all_files "http://h/" [some "x.php"] [".php"] true ∅).urls = ∅ := by
  decide

example :
    "y" ∈ (get_all_files "x" [some "y"] [] false ∅).urls := by
  decide

/-! ### Behaviour of one `gafStep` -/

/-- Exhaustive shape of one loop iteration: either the state is unchanged,
or the anchor's resolved normalized URL is fresh and in scope and is
inserted into the ledger together with at most one of the two result
sets. -/
theorem gafStep_eq_cases (url : String) (sfx : List String) (force : Bool)
    (st : GafState) (a : Option String) :
    gafStep url sfx force st a = st ∨
    ∃ href0 n, a = some href0 ∧ n = normalize_url (urljoin url href0) ∧
      n ∉ st.visited ∧ pyInStr (pyNetlocOf url) (pyNetlocOf n) = true ∧
      (gafStep url sfx force st a = ⟨st.urls, insert n st.dirs, insert n st.visited⟩ ∨
       gafStep url sfx force st a = ⟨insert n st.urls, st.dirs, insert n st.visited⟩ ∨
       gafStep url sfx force st a = ⟨st.urls, st.dirs, insert n st.visited⟩) := by
  cases a with
  | none => exact Or.inl rfl
  | some href0 =>
    by_cases h0 : href0 = "" ∨ pyStartsWith href0 "/"
    · exact Or.inl (by simp [gafStep, h0])
    · by_cases h1 : pyInStr (pyNetlocOf url) (pyNetlocOf (normalize_url (urljoin url href0))) = false ∨
          normalize_url (urljoin url href0) ∈ st.visited
      · exact Or.inl (by simp only [gafStep, if_neg h0, if_pos h1])
      · push_neg at h1
        refine Or.inr ⟨href0, _, rfl, rfl, h1.2, ?_, ?_⟩
        · cases hb : pyInStr (pyNetlocOf url) (pyNetlocOf (normalize_url (urljoin url href0))) with
          | false => exact absurd hb h1.1
          | true => rfl
        · simp only [gafStep, if_neg h0, if_neg (not_or.mpr h1)]
          by_cases h3 : pyEndsWithL (pyPathOf (normalize_url (urljoin url href0))) ['/']
          · exact Or.inl (by simp [h3])
          · by_cases h4 : keepFile (normalize_url (urljoin url href0)) sfx force
            · exact Or.inr (Or.inl (by simp [h3, h4]))
            · exact Or.inr (Or.inr (by simp [h3, h4]))

/-- The state reached when the anchor passes the emptiness, root-relative,
scope and dedup checks but its path ends in `/`: a Directory. -/
theorem gafStep_dir (url : String) (sfx : List String) (force : Bool)
    (st : GafState) (href0 : String)
    (h0 : href0 ≠ "") (h0' : pyStartsWith href0 "/" = false)
    (h1 : pyInStr (pyNetlocOf url) (pyNetlocOf (normalize_url (urljoin url href0))) = true)
    (h2 : normalize_url (urljoin url href0) ∉ st.visited)
    (h3 : pyEndsWithL (pyPathOf (normalize_url (urljoin url href0))) ['/'] = true) :
    gafStep url sfx force st (some href0) =
      ⟨st.urls, insert (normalize_url (urljoin url href0)) st.dirs,
        insert (normalize_url (urljoin url href0)) st.visited⟩ := by
  simp [gafStep, h0, h0', h1, h2, h3]

/-- The state reached when the anchor passes all checks, is not a
directory, and survives the suffix and `.php` rules: a File. -/
theorem gafStep_file (url : String) (sfx : List String) (force : Bool)
    (st : GafState) (href0 : String)
    (h0 : href0 ≠ "") (h0' : pyStartsWith href0 "/" = false)
    (h1 : pyInStr (pyNetlocOf url) (pyNetlocOf (normalize_url (urljoin url href0))) = true)
    (h2 : normalize_url (urljoin url href0) ∉ st.visited)
    (h3 : pyEndsWithL (pyPathOf (normalize_url (urljoin url href0))) ['/'] = false)
    (h4 : keepFile (normalize_url (urljoin url href0)) sfx force = true) :
    gafStep url sfx force st (some href0) =
      ⟨insert (normalize_url (urljoin url href0)) st.urls, st.dirs,
        insert (normalize_url (urljoin url href0)) st.visited⟩ := by
  simp [gafStep, h0, h0', h1, h2, h3, h4]

/-- The state reached when the anchor passes all checks but is skipped by
the suffix or `.php` rule: only the ledger is updated. -/
theorem gafStep_skip (url : String) (sfx : List String) (force : Bool)
    (st : GafState) (href0 : String)
    (h0 : href0 ≠ "") (h0' : pyStartsWith href0 "/" = false)
    (h1 : pyInStr (pyNetlocOf url) (pyNetlocOf (normalize_url (urljoin url href0))) = true)
    (h2 : normalize_url (urljoin url href0) ∉ st.visited)
    (h3 : pyEndsWithL (pyPathOf (normalize_url (urljoin url href0))) ['/'] = false)
    (h4 : keepFile (normalize_url (urljoin url href0)) sfx force = false) :
    gafStep url sfx force st (some href0) =
      ⟨st.urls, st.dirs, insert (normalize_url (urljoin url href0)) st.visited⟩ := by
  simp [gafStep, h0, h0', h1, h2, h3, h4]

/-! ### Invariants of the anchor-loop fold -/

/-- The ledger only grows along the loop. -/
theorem gafFold_visited_mono (url : String) (sfx : List String) (force : Bool)
    (l : List (Option String)) (st : GafState) :
    st.visited ⊆ (l.foldl (gafStep url sfx force) st).visited := by
  induction l generalizing st with
  | nil => exact fun _ h => h
  | cons a l ih =>
    refine Finset.Subset.trans ?_ (ih (gafStep url sfx force st a))
    rcases gafStep_eq_cases url sfx force st a with h | ⟨_, n, _, _, _, _, h | h | h⟩ <;>
      rw [h] <;> first
        | exact fun _ hx => hx
        | exact Finset.subset_insert n st.visited

/-- The files accumulator only grows along the loop. -/
theorem gafFold_urls_mono (url : String) (sfx : List String) (force : Bool)
    (l : List (Option String)) (st : GafState) :
    st.urls ⊆ (l.foldl (gafStep url sfx force) st).urls := by
  induction l generalizing st with
  | nil => exact fun _ h => h
  | cons a l ih =>
    refine Finset.Subset.trans ?_ (ih (gafStep url sfx force st a))
    rcases gafStep_eq_cases url sfx force st a with h | ⟨_, n, _, _, _, _, h | h | h⟩ <;>
      rw [h] <;> first
        | exact fun _ hx => hx
        | exact Finset.subset_insert n st.urls

/-- The dirs accumulator only grows along the loop. -/
theorem gafFold_dirs_mono (url : String) (sfx : List String) (force : Bool)
    (l : List (Option String)) (st : GafState) :
    st.dirs ⊆ (l.foldl (gafStep url sfx force) st).dirs := by
  induction l generalizing st with
  | nil => exact fun _ h => h
  | cons a l ih =>
    refine Finset.Subset.trans ?_ (ih (gafStep url sfx force st a))
    rcases gafStep_eq_cases url sfx force st a with h | ⟨_, n, _, _, _, _, h | h | h⟩ <;>
      rw [h] <;> first
        | exact fun _ hx => hx
        | exact Finset.subset_insert n st.dirs

/-- A URL already in the ledger is never added to (or removed from) either
result set by the rest of the loop. -/
theorem gafFold_frozen (url : String) (sfx : List String) (force : Bool)
    (l : List (Option String)) (st : GafState) (x : String) (hx : x ∈ st.visited) :
    (x ∈ (l.foldl (gafStep url sfx force) st).urls ↔ x ∈ st.urls) ∧
    (x ∈ (l.foldl (gafStep url sfx force) st).dirs ↔ x ∈ st.dirs) := by
  induction l generalizing st with
  | nil => exact ⟨Iff.rfl, Iff.rfl⟩
  | cons a l ih =>
    rcases gafStep_eq_cases url sfx force st a with h | ⟨_, n, _, _, hn, _, h | h | h⟩
    · rw [List.foldl_cons, h]; exact ih st hx
    · rw [List.foldl_cons, h]
      have hne : x ≠ n := fun he => hn (he ▸ hx)
      have := ih ⟨st.urls, insert n st.dirs, insert n st.visited⟩ (Finset.mem_insert_of_mem hx)
      simpa [Finset.mem_insert, hne] using this
    · rw [List.foldl_cons, h]
      have hne : x ≠ n := fun he => hn (he ▸ hx)
      have := ih ⟨insert n st.urls, st.dirs, insert n st.visited⟩ (Finset.mem_insert_of_mem hx)
      simpa [Finset.mem_insert, hne] using this
    · rw [List.foldl_cons, h]
      have := ih ⟨st.urls, st.dirs, insert n st.visited⟩ (Finset.mem_insert_of_mem hx)
      simpa using this

/-- Every URL added to either result set by the loop passed the
domain-substring scope check. -/
theorem gafFold_scope (url : String) (sfx : List String) (force : Bool)
    (l : List (Option String)) (st : GafState) (x : String)
    (hx : x ∈ (l.foldl (gafStep url sfx force) st).urls ∨
      x ∈ (l.foldl (gafStep url sfx force) st).dirs) :
    (x ∈ st.urls ∨ x ∈ st.dirs) ∨ pyInStr (pyNetlocOf url) (pyNetlocOf x) = true := by
  induction l generalizing st with
  | nil => exact Or.inl hx
  | cons a l ih =>
    rw [List.foldl_cons] at hx
    rcases ih (gafStep url sfx force st a) hx with hx2 | hs
    · rcases gafStep_eq_cases url sfx force st a with h | ⟨_, n, _, _, _, hscope, h | h | h⟩
      · rw [h] at hx2; exact Or.inl hx2
      · rw [h] at hx2
        rcases hx2 with hu | hd
        · exact Or.inl (Or.inl hu)
        · rcases Finset.mem_insert.mp hd with he | hd
          · exact Or.inr (he ▸ hscope)
          · exact Or.inl (Or.inr hd)
      · rw [h] at hx2
        rcases hx2 with hu | hd
        · rcases Finset.mem_insert.mp hu with he | hu
          · exact Or.inr (he ▸ hscope)
          · exact Or.inl (Or.inl hu)
        · exact Or.inl (Or.inr hd)
      · rw [h] at hx2; exact Or.inl hx2
    · exact Or.inr hs

/-- Every URL added to either result set by the loop was not in the ledger
at the start of the loop. -/
theorem gafFold_fresh (url : String) (sfx : List String) (force : Bool)
    (l : List (Option String)) (st : GafState) (x : String)
    (hx : x ∈ (l.foldl (gafStep url sfx force) st).urls ∨
      x ∈ (l.foldl (gafStep url sfx force) st).dirs) :
    (x ∈ st.urls ∨ x ∈ st.dirs) ∨ x ∉ st.visited := by
  induction l generalizing st with
  | nil => exact Or.inl hx
  | cons a l ih =>
    rw [List.foldl_cons] at hx
    rcases ih (gafStep url sfx force st a) hx with hx2 | hnv
    · rcases gafStep_eq_cases url sfx force st a with h | ⟨_, n, _, _, hn, _, h | h | h⟩
      · rw [h] at hx2; exact Or.inl hx2
      · rw [h] at hx2
        rcases hx2 with hu | hd
        · exact Or.inl (Or.inl hu)
        · rcases Finset.mem_insert.mp hd with he | hd
          · exact Or.inr (he ▸ hn)
          · exact Or.inl (Or.inr hd)
      · rw [h] at hx2
        rcases hx2 with hu | hd
        · rcases Finset.mem_insert.mp hu with he | hu
          · exact Or.inr (he ▸ hn)
          · exact Or.inl (Or.inl hu)
        · exact Or.inl (Or.inr hd)
      · rw [h] at hx2; exact Or.inl hx2
    · rcases gafStep_eq_cases url sfx force st a with h | ⟨_, n, _, _, _, _, h | h | h⟩
      · rw [h] at hnv; exact Or.inr hnv
      all_goals
        rw [h] at hnv
        exact Or.inr (fun hv => hnv (Finset.mem_insert_of_mem hv))

/-- A URL that fails the scope check and is not yet in the ledger is never
inserted into the ledger by the loop. -/
theorem gafFold_visited_avoid (url : String) (sfx : List String) (force : Bool)
    (l : List (Option String)) (st : GafState) (x : String)
    (hnv : x ∉ st.visited)
    (hs : pyInStr (pyNetlocOf url) (pyNetlocOf x) = false) :
    x ∉ (l.foldl (gafStep url sfx force) st).visited := by
  induction l generalizing st with
  | nil => exact hnv
  | cons a l ih =>
    rw [List.foldl_cons]
    rcases gafStep_eq_cases url sfx force st a with h | ⟨_, n, _, _, _, hscope, h | h | h⟩
    · rw [h]; exact ih st hnv
    all_goals
      rw [h]
      refine ih _ ?_
      simp only [Finset.mem_insert, not_or]
      refine ⟨fun he => ?_, hnv⟩
      rw [he] at hs
      rw [hscope] at hs
      exact Bool.noConfusion hs

/-- One iteration preserves well-formedness. -/
theorem gafStep_wf (url : String) (sfx : List String) (force : Bool)
    (st : GafState) (a : Option String) (hwf : GafWf st) :
    GafWf (gafStep url sfx force st a) := by
  obtain ⟨hu, hd, hdis⟩ := hwf
  rcases gafStep_eq_cases url sfx force st a with h | ⟨_, n, _, _, hn, _, h | h | h⟩
  · rw [h]; exact ⟨hu, hd, hdis⟩
  · rw [h]
    refine ⟨fun x hx => Finset.mem_insert_of_mem (hu hx),
      Finset.insert_subset_insert n hd, ?_⟩
    rw [Finset.disjoint_right]
    intro x hx
    rcases Finset.mem_insert.mp hx with he | hx2
    · exact fun hxu => hn (hu (he ▸ hxu))
    · exact fun hxu => (Finset.disjoint_left.mp hdis) hxu hx2
  · rw [h]
    refine ⟨Finset.insert_subset_insert n hu,
      fun x hx => Finset.mem_insert_of_mem (hd hx), ?_⟩
    rw [Finset.disjoint_left]
    intro x hx
    rcases Finset.mem_insert.mp hx with he | hx2
    · exact fun hxd => hn (hd (he ▸ hxd))
    · exact fun hxd => (Finset.disjoint_left.mp hdis) hx2 hxd
  · rw [h]
    exact ⟨fun x hx => Finset.mem_insert_of_mem (hu hx),
      fun x hx => Finset.mem_insert_of_mem (hd hx), hdis⟩

/-- The loop preserves well-formedness. -/
theorem gafFold_wf (url : String) (sfx : List String) (force : Bool)
    (l : List (Option String)) (st : GafState) (hwf : GafWf st) :
    GafWf (l.foldl (gafStep url sfx force) st) := by
  induction l generalizing st with
  | nil => exact hwf
  | cons a l ih => exact ih _ (gafStep_wf url sfx force st a hwf)

/-! ### Invariants of one `get_all_files` call and of a crawl -/

/-- A `get_all_files` call is well-formed: both output sets are inside the
final ledger and disjoint from each other. -/
theorem gaf_wf (url : String) (anchors : List (Option String))
    (sfx : List String) (force : Bool) (v : Finset String) :
    GafWf (get_all_files url anchors sfx force v) :=
  gafFold_wf url sfx force anchors ⟨∅, ∅, v⟩
    ⟨Finset.empty_subset v, Finset.empty_subset v, Finset.disjoint_empty_left ∅⟩

/-- The input ledger survives a `get_all_files` call. -/
theorem gaf_visited_mono (url : String) (anchors : List (Option String))
    (sfx : List String) (force : Bool) (v : Finset String) :
    v ⊆ (get_all_files url anchors sfx force v).visited :=
  gafFold_visited_mono url sfx force anchors ⟨∅, ∅, v⟩

/-- No URL of either output set of a `get_all_files` call was in the input
ledger. -/
theorem gaf_fresh (url : String) (anchors : List (Option String))
    (sfx : List String) (force : Bool) (v : Finset String) (x : String)
    (hx : x ∈ (get_all_files url anchors sfx force v).urls ∨
      x ∈ (get_all_files url anchors sfx force v).dirs) :
    x ∉ v := by
  rcases gafFold_fresh url sfx force anchors ⟨∅, ∅, v⟩ x hx with h | h
  · exact absurd h (by simp)
  · exact h

/-- Every URL of either output set passed the scope check. -/
theorem gaf_scope (url : String) (anchors : List (Option String))
    (sfx : List String) (force : Bool) (v : Finset String) (x : String)
    (hx : x ∈ (get_all_files url anchors sfx force v).urls ∨
      x ∈ (get_all_files url anchors sfx force v).dirs) :
    pyInStr (pyNetlocOf url) (pyNetlocOf x) = true := by
  rcases gafFold_scope url sfx force anchors ⟨∅, ∅, v⟩ x hx with h | h
  · exact absurd h (by simp)
  · exact h

/-- A URL already seen before a crawl never appears in any of its output
sets. -/
theorem crawl_out_avoid (pages : List Page) (v : Finset String) (x : String)
    (hx : x ∈ v) :
    ∀ o ∈ (crawl pages v).1, x ∉ o.1 ∧ x ∉ o.2 := by
  induction pages generalizing v with
  | nil => intro o ho; exact absurd ho (by simp [crawl])
  | cons pg rest ih =>
    intro o ho
    rw [crawl] at ho
    rcases List.mem_cons.mp ho with he | ho2
    · subst he
      constructor
      · exact fun hu => gaf_fresh pg.url pg.anchors pg.suffixes_to_ignore
          pg.force_download_php v x (Or.inl hu) hx
      · exact fun hd => gaf_fresh pg.url pg.anchors pg.suffixes_to_ignore
          pg.force_download_php v x (Or.inr hd) hx
    · exact ih _ (gaf_visited_mono pg.url pg.anchors pg.suffixes_to_ignore
        pg.force_download_php v hx) o ho2

/-- `get_all_files` over a split anchor list is the fold of the second
part started from the call on the first part. -/
theorem gaf_append (url : String) (sfx : List String) (force : Bool)
    (v : Finset String) (pre post : List (Option String)) :
    get_all_files url (pre ++ post) sfx force v =
      post.foldl (gafStep url sfx force) (get_all_files url pre sfx force v) := by
  simp [get_all_files, List.foldl_append]

/-- A set of URLs all seen before a crawl is disjoint from every output
set of the crawl. -/
theorem crawl_disjoint_of_visited (pages : List Page) (v : Finset String)
    (s : Finset String) (hs : ∀ x ∈ s, x ∈ v)
    (b : Finset String) (hb : b ∈ crawlOutputs pages v) :
    Disjoint s b := by
  rw [crawlOutputs, List.mem_flatMap] at hb
  obtain ⟨o, ho, hbo⟩ := hb
  rw [Finset.disjoint_left]
  intro x hx
  have hav := crawl_out_avoid pages v x (hs x hx) o ho
  rcases List.mem_cons.mp hbo with he | hbo2
  · exact he ▸ hav.1
  · rcases List.mem_cons.mp hbo2 with he | hbo3
    · exact he ▸ hav.2
    · exact absurd hbo3 (List.not_mem_nil b)

/-! ### The claims -/

/-- C1, counterexample: on the index page `http://h/` with the single
anchor `a.mp4` and `suffixes_to_ignore = [".mp4"]`, the link is classified
Skipped (it lands in neither returned set), yet its normalized URL
`http://h/a.mp4` IS inserted into `visited_urls` — refuting the claim that
a Skipped link is never inserted into the Seen set. -/
theorem C1_skipped_in_seen_cex :
    normalize_url (urljoin "http://h/" "a.mp4") = "http://h/a.mp4" ∧
    (get_all_files "http://h/" [some "a.mp4"] [".mp4"] false ∅).urls = ∅ ∧
    (get_all_files "http://h/" [some "a.mp4"] [".mp4"] false ∅).dirs = ∅ ∧
    "http://h/a.mp4" ∈ (get_all_files "http://h/" [some "a.mp4"] [".mp4"] false ∅).visited := by
  decide

/-- C1, amended: a link skipped by the scope check (and not already seen)
is never inserted into `visited_urls`; but a link that passes the scope
and dedup checks and is then Skipped by the suffix or `.php` rule ends in
neither result set while its normalized URL IS inserted into
`visited_urls`. -/
theorem C1_seen_insertion :
    (∀ (url : String) (anchors : List (Option String)) (sfx : List String) (force : Bool)
        (v : Finset String) (x : String), x ∉ v →
        pyInStr (pyNetlocOf url) (pyNetlocOf x) = false →
        x ∉ (get_all_files url anchors sfx force v).visited) ∧
    (∀ (url : String) (pre post : List (Option String)) (href0 : String)
        (sfx : List String) (force : Bool) (v : Finset String) (n : String),
        n = normalize_url (urljoin url href0) →
        href0 ≠ "" → pyStartsWith href0 "/" = false →
        pyInStr (pyNetlocOf url) (pyNetlocOf n) = true →
        n ∉ (get_all_files url pre sfx force v).visited →
        pyEndsWithL (pyPathOf n) ['/'] = false →
        keepFile n sfx force = false →
        n ∉ (get_all_files url (pre ++ some href0 :: post) sfx force v).urls ∧
        n ∉ (get_all_files url (pre ++ some href0 :: post) sfx force v).dirs ∧
        n ∈ (get_all_files url (pre ++ some href0 :: post) sfx force v).visited) := by
  constructor
  · intro url anchors sfx force v x hnv hs
    exact gafFold_visited_avoid url sfx force anchors ⟨∅, ∅, v⟩ x hnv hs
  · intro url pre post href0 sfx force v n hn h0 h0' h1 h2 h3 h4
    subst hn
    have hwf := gaf_wf url pre sfx force v
    have hstep := gafStep_skip url sfx force (get_all_files url pre sfx force v) href0
      h0 h0' h1 h2 h3 h4
    rw [gaf_append, List.foldl_cons, hstep]
    set st1 := get_all_files url pre sfx force v with hst1
    have hmem : normalize_url (urljoin url href0) ∈
        (⟨st1.urls, st1.dirs, insert (normalize_url (urljoin url href0)) st1.visited⟩ :
          GafState).visited := Finset.mem_insert_self _ _
    have hfro := gafFold_frozen url sfx force post
      ⟨st1.urls, st1.dirs, insert (normalize_url (urljoin url href0)) st1.visited⟩
      (normalize_url (urljoin url href0)) hmem
    refine ⟨?_, ?_, ?_⟩
    · intro hu
      exact h2 (hwf.1 (hfro.1.mp hu))
    · intro hd
      exact h2 (hwf.2.1 (hfro.2.mp hd))
    · exact gafFold_visited_mono url sfx force post _ hmem

/-- C1 amended, witness: both parts applied at concrete inputs — the
out-of-scope link `http://evil/x` never enters the ledger, and the
suffix-skipped link `a.mp4` ends in neither set but enters the ledger. -/
theorem C1_seen_insertion_witness :
    "http://evil/x" ∉
      (get_all_files "http://h/" [some "http://evil/x"] [] false ∅).visited ∧
    ("http://h/a.mp4" ∉ (get_all_files "http://h/" [some "a.mp4"] [".mp4"] false ∅).urls ∧
     "http://h/a.mp4" ∉ (get_all_files "http://h/" [some "a.mp4"] [".mp4"] false ∅).dirs ∧
     "http://h/a.mp4" ∈ (get_all_files "http://h/" [some "a.mp4"] [".mp4"] false ∅).visited) :=
  ⟨C1_seen_insertion.1 "http://h/" [some "http://evil/x"] [] false ∅ "http://evil/x"
      (by decide) (by decide),
   C1_seen_insertion.2 "http://h/" [] [] "a.mp4" [".mp4"] false ∅ "http://h/a.mp4"
      (by decide) (by decide) (by decide) (by decide) (by decide) (by decide) (by decide)⟩

/-- C2: across any crawl — any sequence of `get_all_files` calls sharing
the `visited_urls` ledger — the returned files sets and dirs sets are
pairwise disjoint, so no normalized URL is classified File or Directory
more than once. -/
theorem C2_dedup_invariant (pages : List Page) (v : Finset String) :
    List.Pairwise (fun a b => Disjoint a b) (crawlOutputs pages v) := by
  induction pages generalizing v with
  | nil => simp [crawlOutputs, crawl]
  | cons pg rest ih =>
    obtain ⟨hu, hd, hdis⟩ := gaf_wf pg.url pg.anchors pg.suffixes_to_ignore
      pg.force_download_php v
    have hcons : crawlOutputs (pg :: rest) v =
        (get_all_files pg.url pg.anchors pg.suffixes_to_ignore pg.force_download_php v).urls ::
          (get_all_files pg.url pg.anchors pg.suffixes_to_ignore pg.force_download_php v).dirs ::
          crawlOutputs rest
            (get_all_files pg.url pg.anchors pg.suffixes_to_ignore pg.force_download_php
              v).visited := by
      simp [crawlOutputs, crawl]
    rw [hcons]
    refine List.Pairwise.cons ?_ (List.Pairwise.cons ?_ (ih _))
    · intro b hb
      rcases List.mem_cons.mp hb with he | hb2
      · exact he ▸ hdis
      · exact crawl_disjoint_of_visited rest _ _ (fun x hx => hu hx) b hb2
    · intro b hb
      exact crawl_disjoint_of_visited rest _ _ (fun x hx => hd hx) b hb

/-- C3, counterexample: with `suffixes_to_ignore = [".php"]` and
`force_download_php = true`, the anchor `x.php` on page `http://h/` passes
the scope and dedup checks, its path does not end in `/`, its normalized
URL ends in `.php` — yet it is NOT classified File: the suffix rule wins
over the force flag, refuting the claim's `force_download_php = true`
half. -/
theorem C3_php_policy_cex :
    normalize_url (urljoin "http://h/" "x.php") = "http://h/x.php" ∧
    pyInStr (pyNetlocOf "http://h/") (pyNetlocOf "http://h/x.php") = true ∧
    pyEndsWithL (pyPathOf "http://h/x.php") ['/'] = false ∧
    pyEndsWith "http://h/x.php" ".php" = true ∧
    "http://h/x.php" ∉ (get_all_files "http://h/" [some "x.php"] [".php"] true ∅).urls ∧
    "http://h/x.php" ∉ (get_all_files "http://h/" [some "x.php"] [".php"] true ∅).dirs := by
  decide

/-- C3, amended: a link that passes the scope and dedup checks and whose
normalized URL's path does not end in `/`, where the normalized URL ends
in `.php`, is Skipped when `force_download_php = false`; it is classified
File when `force_download_php = true` PROVIDED it also matches no entry of
`suffixes_to_ignore`. -/
theorem C3_php_policy :
    ∀ (url : String) (pre post : List (Option String)) (href0 : String)
      (sfx : List String) (force : Bool) (v : Finset String) (n : String),
      n = normalize_url (urljoin url href0) →
      href0 ≠ "" → pyStartsWith href0 "/" = false →
      pyInStr (pyNetlocOf url) (pyNetlocOf n) = true →
      n ∉ (get_all_files url pre sfx force v).visited →
      pyEndsWithL (pyPathOf n) ['/'] = false →
      pyEndsWith n ".php" = true →
      (force = false →
        n ∉ (get_all_files url (pre ++ some href0 :: post) sfx force v).urls ∧
        n ∉ (get_all_files url (pre ++ some href0 :: post) sfx force v).dirs) ∧
      (force = true → (sfx.any (fun s => pyEndsWith n s)) = false →
        n ∈ (get_all_files url (pre ++ some href0 :: post) sfx force v).urls) := by
  intro url pre post href0 sfx force v n hn h0 h0' h1 h2 h3 hphp
  subst hn
  constructor
  · intro hforce
    subst hforce
    have h4 : keepFile (normalize_url (urljoin url href0)) sfx false = false := by
      simp [keepFile, hphp]
    have hstep := gafStep_skip url sfx false (get_all_files url pre sfx false v) href0
      h0 h0' h1 h2 h3 h4
    have hwf := gaf_wf url pre sfx false v
    rw [gaf_append, List.foldl_cons, hstep]
    set st1 := get_all_files url pre sfx false v with hst1
    have hmem : normalize_url (urljoin url href0) ∈
        (⟨st1.urls, st1.dirs, insert (normalize_url (urljoin url href0)) st1.visited⟩ :
          GafState).visited := Finset.mem_insert_self _ _
    have hfro := gafFold_frozen url sfx false post
      ⟨st1.urls, st1.dirs, insert (normalize_url (urljoin url href0)) st1.visited⟩
      (normalize_url (urljoin url href0)) hmem
    exact ⟨fun hu => h2 (hwf.1 (hfro.1.mp hu)), fun hd => h2 (hwf.2.1 (hfro.2.mp hd))⟩
  · intro hforce hany
    subst hforce
    have h4 : keepFile (normalize_url (urljoin url href0)) sfx true = true := by
      simp [keepFile, hany]
    have hstep := gafStep_file url sfx true (get_all_files url pre sfx true v) href0
      h0 h0' h1 h2 h3 h4
    rw [gaf_append, List.foldl_cons, hstep]
    set st1 := get_all_files url pre sfx true v with hst1
    exact gafFold_urls_mono url sfx true post _ (Finset.mem_insert_self _ _)

/-- C3 amended, witness: with the default-like empty suffix list, `p.php`
is Skipped under `force_download_php = false` and classified File under
`force_download_php = true`. -/
theorem C3_php_policy_witness :
    ("http://h/p.php" ∉ (get_all_files "http://h/" [some "p.php"] [] false ∅).urls ∧
     "http://h/p.php" ∉ (get_all_files "http://h/" [some "p.php"] [] false ∅).dirs) ∧
    "http://h/p.php" ∈ (get_all_files "http://h/" [some "p.php"] [] true ∅).urls :=
  ⟨(C3_php_policy "http://h/" [] [] "p.php" [] false ∅ "http://h/p.php"
      (by decide) (by decide) (by decide) (by decide) (by decide) (by decide)
      (by decide)).1 rfl,
   (C3_php_policy "http://h/" [] [] "p.php" [] true ∅ "http://h/p.php"
      (by decide) (by decide) (by decide) (by decide) (by decide) (by decide)
      (by decide)).2 rfl (by decide)⟩

/-- C4: an anchor whose resolved, normalized URL has a netloc that does
not contain the crawl domain (`urlparse(url).netloc`) as a substring
appears in neither output set of `get_all_files`. -/
theorem C4_scope_invariant (url : String) (anchors : List (Option String))
    (sfx : List String) (force : Bool) (v : Finset String) (href0 : String)
    (hmem : some href0 ∈ anchors)
    (hscope : pyInStr (pyNetlocOf url)
      (pyNetlocOf (normalize_url (urljoin url href0))) = false) :
    normalize_url (urljoin url href0) ∉ (get_all_files url anchors sfx force v).urls ∧
    normalize_url (urljoin url href0) ∉ (get_all_files url anchors sfx force v).dirs := by
  constructor
  · intro hu
    have := gaf_scope url anchors sfx force v _ (Or.inl hu)
    rw [hscope] at this
    exact Bool.noConfusion this
  · intro hd
    have := gaf_scope url anchors sfx force v _ (Or.inr hd)
    rw [hscope] at this
    exact Bool.noConfusion this

/-- C4, witness: the off-domain anchor `http://evil/x` on page `http://h/`
is in neither output set. -/
theorem C4_scope_invariant_witness :
    normalize_url (urljoin "http://h/" "http://evil/x") ∉
      (get_all_files "http://h/" [some "http://evil/x"] [".mp4"] false ∅).urls ∧
    normalize_url (urljoin "http://h/" "http://evil/x") ∉
      (get_all_files "http://h/" [some "http://evil/x"] [".mp4"] false ∅).dirs :=
  C4_scope_invariant "http://h/" [some "http://evil/x"] [".mp4"] false ∅ "http://evil/x"
    (by decide) (by decide)

/-- C5, counterexample: with the degenerate root URL `x` (empty scheme and
netloc, so the crawl domain is the empty string), the malformed link `y`
normalizes to the degenerate form `y` with empty scheme and netloc, yet it
is NOT discarded: it is classified File — refuting the claim's guarantee
for every root URL. -/
theorem C5_degenerate_cex :
    normalize_url (urljoin "x" "y") = "y" ∧
    (urlparseL "y".toList []).scheme = [] ∧
    (urlparseL "y".toList []).netloc = [] ∧
    "y" ∈ (get_all_files "x" [some "y"] [] false ∅).urls := by
  decide

/-- C5, amended: whenever the crawl domain (the netloc of the index page
URL) is nonempty, a URL that normalizes to a degenerate form with empty
scheme and netloc appears in neither output set of `get_all_files`. -/
theorem C5_degenerate_out_of_scope (url : String) (anchors : List (Option String))
    (sfx : List String) (force : Bool) (v : Finset String) (x : String)
    (hdom : pyNetlocOf url ≠ [])
    (hxs : (urlparseL x.toList []).scheme = [])
    (hxn : pyNetlocOf x = []) :
    x ∉ (get_all_files url anchors sfx force v).urls ∧
    x ∉ (get_all_files url anchors sfx force v).dirs := by
  have key : ∀ hx : x ∈ (get_all_files url anchors sfx force v).urls ∨
      x ∈ (get_all_files url anchors sfx force v).dirs, False := by
    intro hx
    have hsc := gaf_scope url anchors sfx force v x hx
    rw [hxn] at hsc
    rw [pyInStr] at hsc
    exact hdom (List.isEmpty_iff.mp hsc)
  exact ⟨fun hu => key (Or.inl hu), fun hd => key (Or.inr hd)⟩

/-- C5 amended, witness: on the well-formed page `http://h/`, the
degenerate URL `y` is in neither output set. -/
theorem C5_degenerate_out_of_scope_witness :
    "y" ∉ (get_all_files "http://h/" [some "y"] [] false ∅).urls ∧
    "y" ∉ (get_all_files "http://h/" [some "y"] [] false ∅).dirs :=
  C5_degenerate_out_of_scope "http://h/" [some "y"] [] false ∅ "y"
    (by decide) (by decide) (by decide)

/-- The directories existing after `download_file` are the input ones plus
the `makedirs` chain of the mapped path's dirname, whatever the response. -/
theorem download_file_dirs (url root_download_path : String) (response : HttpResponse)
    (fs : FsState) :
    (download_file url root_download_path response fs).1.dirs =
      fs.dirs ∪ makedirsSet (pyDirname (local_file_path url root_download_path)) := by
  simp only [download_file, fsMakedirs]
  split
  · rfl
  · split <;> rfl

/-- C6: a download whose response status is 403 yields the forbidden
failure and writes no file: the file map is untouched. -/
theorem C6_forbidden_no_write (url root_download_path : String) (response : HttpResponse)
    (fs : FsState) (h : response.status_code = 403) :
    (download_file url root_download_path response fs).2 = DownloadResult.forbidden ∧
    ∀ p, (download_file url root_download_path response fs).1.files p = fs.files p := by
  constructor
  · simp [download_file, h]
  · intro p
    simp [download_file, h, fsMakedirs]

/-- C6, witness: a concrete 403 download is forbidden and leaves the empty
file map empty. -/
theorem C6_forbidden_no_write_witness :
    (download_file "http://h/a" "/tmp" ⟨403, [[1]]⟩ ⟨∅, fun _ => none⟩).2 =
      DownloadResult.forbidden ∧
    ∀ p, (download_file "http://h/a" "/tmp" ⟨403, [[1]]⟩ ⟨∅, fun _ => none⟩).1.files p =
      (⟨∅, fun _ => none⟩ : FsState).files p :=
  C6_forbidden_no_write "http://h/a" "/tmp" ⟨403, [[1]]⟩ ⟨∅, fun _ => none⟩ rfl

/-- C7: whatever `download_file` writes, it writes at the mapped local
path — the join of the root download path, the URL's netloc, and the
URL's path with leading slashes stripped — and on the claim's concrete
instance that mapping gives `/tmp/out/example.com/a/b.txt`. -/
theorem C7_local_path_mapping :
    (∀ (url root_download_path : String) (response : HttpResponse) (fs : FsState)
        (p : String) (c : List Nat),
      (download_file url root_download_path response fs).2 = DownloadResult.written p c →
      p = local_file_path url root_download_path) ∧
    local_file_path "http://example.com/a/b.txt" "/tmp/out" =
      "/tmp/out/example.com/a/b.txt" := by
  constructor
  · intro url root_download_path response fs p c h
    simp only [download_file] at h
    split at h
    · exact absurd h (by simp)
    · split at h
      · exact absurd h (by simp)
      · exact ((DownloadResult.written.injEq _ _ _ _).mp h.symm).1
  · decide

/-- C7, witness: the general component applied at a concrete successful
download, recovering the mapped path. -/
theorem C7_local_path_mapping_witness :
    "/tmp/out/example.com/a/b.txt" = local_file_path "http://example.com/a/b.txt" "/tmp/out" :=
  C7_local_path_mapping.1 "http://example.com/a/b.txt" "/tmp/out" ⟨200, [[1]]⟩
    ⟨∅, fun _ => none⟩ "/tmp/out/example.com/a/b.txt" [1] (by decide)

/-- C9: when the status is anything other than 403 and the mapped path is
not an existing directory, the body is streamed to the mapped path exactly
as for a successful (status 200) download, and the orchestrator's
completion handler logs the URL as downloaded. -/
theorem C9_non403_streams_body (url root_download_path : String) (response : HttpResponse)
    (fs : FsState)
    (h1 : response.status_code ≠ 403)
    (h2 : local_file_path url root_download_path ∉
      (download_file url root_download_path response fs).1.dirs) :
    (download_file url root_download_path response fs).2 =
      DownloadResult.written (local_file_path url root_download_path)
        (streamContent response.chunks) ∧
    (download_file url root_download_path response fs).1.files
        (local_file_path url root_download_path) = some (streamContent response.chunks) ∧
    download_file url root_download_path response fs =
      download_file url root_download_path ⟨200, response.chunks⟩ fs ∧
    (download_and_log url root_download_path response fs).2 = "Downloaded " ++ url := by
  rw [download_file_dirs] at h2
  have h2' : local_file_path url root_download_path ∉
      (fsMakedirs fs (pyDirname (local_file_path url root_download_path))).dirs := by
    simpa [fsMakedirs] using h2
  refine ⟨?_, ?_, ?_, rfl⟩
  · simp [download_file, if_neg h1, if_neg h2']
  · simp [download_file, if_neg h1, if_neg h2']
  · have h200 : (200 : Nat) ≠ 403 := by decide
    simp [download_file, if_neg h1, if_neg h2', if_neg h200]

/-- C9, witness: a concrete 404 download writes the body to the mapped
path just like a 200 download would. -/
theorem C9_non403_streams_body_witness :
    (download_file "http://h/a" "/tmp" ⟨404, [[5], [], [6]]⟩ ⟨∅, fun _ => none⟩).2 =
      DownloadResult.written (local_file_path "http://h/a" "/tmp")
        (streamContent [[5], [], [6]]) ∧
    (download_file "http://h/a" "/tmp" ⟨404, [[5], [], [6]]⟩ ⟨∅, fun _ => none⟩).1.files
        (local_file_path "http://h/a" "/tmp") = some (streamContent [[5], [], [6]]) ∧
    download_file "http://h/a" "/tmp" ⟨404, [[5], [], [6]]⟩ ⟨∅, fun _ => none⟩ =
      download_file "http://h/a" "/tmp" ⟨200, [[5], [], [6]]⟩ ⟨∅, fun _ => none⟩ ∧
    (download_and_log "http://h/a" "/tmp" ⟨404, [[5], [], [6]]⟩ ⟨∅, fun _ => none⟩).2 =
      "Downloaded " ++ "http://h/a" :=
  C9_non403_streams_body "http://h/a" "/tmp" ⟨404, [[5], [], [6]]⟩ ⟨∅, fun _ => none⟩
    (by decide) (by decide)

/-- C10: the whole `makedirs` chain of the mapped path's dirname is
present among the directories after any `download_file` call, and the
directories created do not depend on the response at all — in particular
they exist even when the status is 403 and no file is written. -/
theorem C10_makedirs_before_request (url root_download_path : String)
    (response : HttpResponse) (fs : FsState) :
    makedirsSet (pyDirname (local_file_path url root_download_path)) ⊆
      (download_file url root_download_path response fs).1.dirs ∧
    (download_file url root_download_path response fs).1.dirs =
      (download_file url root_download_path ⟨403, []⟩ fs).1.dirs := by
  constructor
  · rw [download_file_dirs]
    exact Finset.subset_union_right
  · rw [download_file_dirs, download_file_dirs]

/-! ### Toward C8: character lemmas -/

/-- Characters with equal codes are equal. -/
theorem charEq_of_toNat (c d : Char) (h : c.toNat = d.toNat) : c = d :=
  Char.eq_of_val_eq (UInt32.ext h)

/-- The code of the lower-cased character. -/
theorem toNat_lowerChar (c : Char) :
    (lowerChar c).toNat =
      if 65 ≤ c.toNat ∧ c.toNat ≤ 90 then c.toNat + 32 else c.toNat := by
  by_cases h : 65 ≤ c.toNat ∧ c.toNat ≤ 90
  · have hv : Nat.isValidChar (c.toNat + 32) := Or.inl (by omega)
    simp only [lowerChar, if_pos h, Char.ofNat, dif_pos hv]
    rfl
  · rw [lowerChar, if_neg h]
    exact (if_neg h).symm

/-- ASCII lower-casing is idempotent. -/
theorem lowerChar_idem (c : Char) : lowerChar (lowerChar c) = lowerChar c := by
  apply charEq_of_toNat
  rw [toNat_lowerChar (lowerChar c), toNat_lowerChar c]
  by_cases h : 65 ≤ c.toNat ∧ c.toNat ≤ 90
  · rw [if_pos h, if_neg (by omega)]
  · rw [if_neg h, if_neg h]

/-- Idempotence of lower-casing, mapped over a list. -/
theorem map_lowerChar_idem (l : List Char) :
    (l.map lowerChar).map lowerChar = l.map lowerChar := by
  induction l with
  | nil => rfl
  | cons c cs ih => simp [lowerChar_idem, ih]

/-- Lower-casing preserves ASCII-alphabeticity. -/
theorem isAlphaAscii_lowerChar (c : Char) (h : isAlphaAscii c = true) :
    isAlphaAscii (lowerChar c) = true := by
  simp only [isAlphaAscii, Bool.or_eq_true, Bool.and_eq_true, decide_eq_true_eq] at h ⊢
  rw [toNat_lowerChar]
  by_cases hc : 65 ≤ c.toNat ∧ c.toNat ≤ 90
  · rw [if_pos hc]; omega
  · rw [if_neg hc]; omega

/-- Lower-casing preserves scheme characters. -/
theorem isSchemeChar_lowerChar (c : Char) (h : isSchemeChar c = true) :
    isSchemeChar (lowerChar c) = true := by
  simp only [isSchemeChar, isAlphaAscii, Bool.or_eq_true, Bool.and_eq_true,
    decide_eq_true_eq] at h ⊢
  rw [toNat_lowerChar]
  by_cases hc : 65 ≤ c.toNat ∧ c.toNat ≤ 90
  · rw [if_pos hc]; omega
  · rw [if_neg hc]; omega

/-- An ASCII-alphabetic character is not a colon. -/
theorem alpha_ne_colon (c : Char) (h : isAlphaAscii c = true) : c ≠ ':' := by
  intro he; subst he; exact absurd h (by decide)

/-- A scheme character is not a colon. -/
theorem schemeChar_ne_colon (c : Char) (h : isSchemeChar c = true) : c ≠ ':' := by
  intro he; subst he; exact absurd h (by decide)

/-! ### Toward C8: splitter specifications -/

/-- `splitFirst` finds nothing iff the character is absent. -/
theorem splitFirst_eq_none (c : Char) (l : List Char) (h : c ∉ l) :
    splitFirst c l = none := by
  induction l with
  | nil => rfl
  | cons x xs ih =>
    have hx : ¬ x = c := fun he => h (he ▸ List.mem_cons_self x xs)
    rw [splitFirst, if_neg hx, ih (fun hm => h (List.mem_cons_of_mem x hm))]
    rfl

/-- What a successful `splitFirst` means. -/
theorem splitFirst_eq_some (c : Char) (l : List Char) (pr : List Char × List Char)
    (h : splitFirst c l = some pr) : l = pr.1 ++ c :: pr.2 ∧ c ∉ pr.1 := by
  induction l generalizing pr with
  | nil => exact absurd h (by simp [splitFirst])
  | cons x xs ih =>
    rw [splitFirst] at h
    by_cases hx : x = c
    · rw [if_pos hx] at h
      have he := Option.some.inj h
      subst he
      exact ⟨by simp [hx], by simp⟩
    · rw [if_neg hx] at h
      cases hs : splitFirst c xs with
      | none => rw [hs] at h; exact absurd h (by simp)
      | some pr2 =>
        rw [hs] at h
        simp only [Option.map_some'] at h
        have he := Option.some.inj h
        subst he
        obtain ⟨h1, h2⟩ := ih pr2 hs
        refine ⟨by rw [List.cons_append, ← h1], ?_⟩
        intro hm
        rcases List.mem_cons.mp hm with he2 | hm2
        · exact hx he2.symm
        · exact h2 hm2

/-- `splitFirst` splits exactly at an occurrence preceded by none. -/
theorem splitFirst_append (c : Char) (a b : List Char) (h : c ∉ a) :
    splitFirst c (a ++ c :: b) = some (a, b) := by
  induction a with
  | nil => simp [splitFirst]
  | cons x xs ih =>
    have hx : ¬ x = c := fun he => h (he ▸ List.mem_cons_self x xs)
    rw [List.cons_append, splitFirst, if_neg hx,
      ih (fun hm => h (List.mem_cons_of_mem x hm))]
    rfl

/-- `splitLastSlash` finds nothing iff no slash occurs. -/
theorem splitLastSlash_eq_none (p : List Char) (h : '/' ∉ p) :
    splitLastSlash p = none := by
  induction p with
  | nil => rfl
  | cons c cs ih =>
    have hc : ¬ c = '/' := fun he => h (he ▸ List.mem_cons_self c cs)
    rw [splitLastSlash, ih (fun hm => h (List.mem_cons_of_mem c hm))]
    simp [hc]

/-- A slash in the list makes `splitLastSlash` succeed. -/
theorem splitLastSlash_isSome (p : List Char) (h : '/' ∈ p) :
    ∃ bp, splitLastSlash p = some bp := by
  induction p with
  | nil => exact absurd h (List.not_mem_nil '/')
  | cons c cs ih =>
    rw [splitLastSlash]
    cases hs : splitLastSlash cs with
    | some bp2 => exact ⟨(c :: bp2.1, bp2.2), rfl⟩
    | none =>
      rcases List.mem_cons.mp h with he | hm
      · exact ⟨([], cs), by simp [he.symm]⟩
      · obtain ⟨bp2, hbp2⟩ := ih hm
        exact absurd hbp2 (by rw [hs]; simp)

/-- What a successful `splitLastSlash` means. -/
theorem splitLastSlash_eq_some (p : List Char) (bp : List Char × List Char)
    (h : splitLastSlash p = some bp) : p = bp.1 ++ '/' :: bp.2 ∧ '/' ∉ bp.2 := by
  induction p generalizing bp with
  | nil => exact absurd h (by simp [splitLastSlash])
  | cons c cs ih =>
    rw [splitLastSlash] at h
    cases hs : splitLastSlash cs with
    | some bp2 =>
      rw [hs] at h
      simp only [] at h
      have he := Option.some.inj h
      subst he
      obtain ⟨h1, h2⟩ := ih bp2 hs
      exact ⟨by rw [List.cons_append, ← h1], h2⟩
    | none =>
      rw [hs] at h
      simp only [] at h
      by_cases hc : c = '/'
      · rw [if_pos hc] at h
        have he := Option.some.inj h
        subst he
        refine ⟨by simp [hc], fun hm => ?_⟩
        obtain ⟨bp2, hbp2⟩ := splitLastSlash_isSome cs hm
        rw [hs] at hbp2
        exact Option.noConfusion hbp2
      · rw [if_neg hc] at h
        exact absurd h (by simp)

/-- The last-slash split reassembles and has a slash-free tail. -/
theorem splitLastSlash_append (x a : List Char) (h : '/' ∉ a) :
    splitLastSlash (x ++ '/' :: a) = some (x, a) := by
  induction x with
  | nil =>
    rw [List.nil_append, splitLastSlash, splitLastSlash_eq_none a h]
    simp
  | cons c cs ih =>
    rw [List.cons_append, splitLastSlash, ih]

/-- Specification of the netloc scan: the taken part is delimiter-free,
the rest is empty or starts with a delimiter, and they reassemble. -/
theorem takeUntilDelims_spec (r : List Char) :
    (∀ x ∈ (takeUntilDelims r).1, isDelim x = false) ∧
    ((takeUntilDelims r).2 = [] ∨
      ∃ d t, (takeUntilDelims r).2 = d :: t ∧ isDelim d = true) ∧
    r = (takeUntilDelims r).1 ++ (takeUntilDelims r).2 := by
  induction r with
  | nil => exact ⟨by simp [takeUntilDelims], Or.inl rfl, rfl⟩
  | cons c cs ih =>
    by_cases hc : isDelim c = true
    · refine ⟨by simp [takeUntilDelims, hc], Or.inr ⟨c, cs, by simp [takeUntilDelims, hc], hc⟩,
        by simp [takeUntilDelims, hc]⟩
    · have hc2 : isDelim c = false := by
        cases hb : isDelim c with
        | true => exact absurd hb hc
        | false => rfl
      obtain ⟨ih1, ih2, ih3⟩ := ih
      refine ⟨?_, ?_, ?_⟩
      · intro x hx
        rw [takeUntilDelims] at hx
        rw [if_neg (by rw [hc2]; exact Bool.noConfusion)] at hx
        rcases List.mem_cons.mp hx with he | hm
        · exact he ▸ hc2
        · exact ih1 x hm
      · rw [takeUntilDelims, if_neg (by rw [hc2]; exact Bool.noConfusion)]
        exact ih2
      · rw [takeUntilDelims, if_neg (by rw [hc2]; exact Bool.noConfusion)]
        exact congrArg (c :: ·) ih3

/-- The netloc scan stops exactly at the first delimiter. -/
theorem takeUntilDelims_append (n p : List Char)
    (hn : ∀ x ∈ n, isDelim x = false)
    (hp : p = [] ∨ ∃ d t, p = d :: t ∧ isDelim d = true) :
    takeUntilDelims (n ++ p) = (n, p) := by
  induction n with
  | nil =>
    rcases hp with he | ⟨d, t, he, hd⟩
    · subst he; rfl
    · subst he
      rw [List.nil_append, takeUntilDelims, if_pos hd]
  | cons c cs ih =>
    have hc := hn c (List.mem_cons_self c cs)
    rw [List.cons_append, takeUntilDelims,
      if_neg (by rw [hc]; exact Bool.noConfusion),
      ih (fun x hx => hn x (List.mem_cons_of_mem c hx))]

/-- A present character makes `splitFirst` succeed. -/
theorem splitFirst_isSome (c : Char) (l : List Char) (h : c ∈ l) :
    ∃ pr, splitFirst c l = some pr := by
  induction l with
  | nil => exact absurd h (List.not_mem_nil c)
  | cons x xs ih =>
    rw [splitFirst]
    by_cases hx : x = c
    · exact ⟨([], xs), by rw [if_pos hx]⟩
    · rcases List.mem_cons.mp h with he | hm
      · exact absurd he.symm hx
      · obtain ⟨pr, hpr⟩ := ih hm
        exact ⟨(x :: pr.1, pr.2), by rw [if_neg hx, hpr]; rfl⟩

/-- The character is absent when `splitFirst` finds nothing. -/
theorem not_mem_of_splitFirst_eq_none (c : Char) (l : List Char)
    (h : splitFirst c l = none) : c ∉ l := by
  intro hm
  obtain ⟨pr, hpr⟩ := splitFirst_isSome c l hm
  rw [h] at hpr
  exact Option.noConfusion hpr

/-- The part before the fragment cut contains no `'#'` and is a prefix. -/
theorem pyCutFragment_fst (r : List Char) :
    '#' ∉ (pyCutFragment r).1 ∧ (pyCutFragment r).1 <+: r := by
  rw [pyCutFragment]
  cases hs : splitFirst '#' r with
  | none => exact ⟨not_mem_of_splitFirst_eq_none '#' r hs, List.prefix_refl r⟩
  | some pr =>
    obtain ⟨h1, h2⟩ := splitFirst_eq_some '#' r pr hs
    exact ⟨h2, h1 ▸ ⟨'#' :: pr.2, rfl⟩⟩

/-- The part before the query cut contains no `'?'` and is a prefix. -/
theorem pyCutQuery_fst (r : List Char) :
    '?' ∉ (pyCutQuery r).1 ∧ (pyCutQuery r).1 <+: r := by
  rw [pyCutQuery]
  cases hs : splitFirst '?' r with
  | none => exact ⟨not_mem_of_splitFirst_eq_none '?' r hs, List.prefix_refl r⟩
  | some pr =>
    obtain ⟨h1, h2⟩ := splitFirst_eq_some '?' r pr hs
    exact ⟨h2, h1 ▸ ⟨'?' :: pr.2, rfl⟩⟩

/-- Cutting at an absent character keeps the list whole. -/
theorem pyCutFragment_of_not_mem (r : List Char) (h : '#' ∉ r) :
    pyCutFragment r = (r, []) := by
  rw [pyCutFragment, splitFirst_eq_none '#' r h]

/-- Cutting at an absent character keeps the list whole. -/
theorem pyCutQuery_of_not_mem (r : List Char) (h : '?' ∉ r) :
    pyCutQuery r = (r, []) := by
  rw [pyCutQuery, splitFirst_eq_none '?' r h]

/-- A failing scheme split leaves the URL whole and returns the default. -/
theorem pySchemeSplit_of_fails (u d : List Char) (h : schemeSplitFails u) :
    pySchemeSplit u d = (d, u) := by
  cases hs : splitFirst ':' u with
  | none => simp [pySchemeSplit, hs]
  | some pr => simp [pySchemeSplit, hs, h pr hs]

/-- A leading slash defeats the scheme split. -/
theorem schemeSplitFails_cons_slash (t : List Char) : schemeSplitFails ('/' :: t) := by
  intro pr hpr
  rw [splitFirst, if_neg (by decide : ¬ ('/' : Char) = ':')] at hpr
  cases hs : splitFirst ':' t with
  | none => rw [hs] at hpr; exact Option.noConfusion hpr
  | some pr2 =>
    rw [hs] at hpr
    simp only [Option.map_some'] at hpr
    have he := Option.some.inj hpr
    subst he
    simp [validSchemeSplit, (by decide : isAlphaAscii '/' = false)]

/-- The empty list defeats the scheme split. -/
theorem schemeSplitFails_nil : schemeSplitFails [] := by
  intro pr hpr
  exact absurd hpr (by simp [splitFirst])

/-- Scheme-split failure transfers to prefixes. -/
theorem schemeSplitFails_prefix (u p : List Char) (h : schemeSplitFails u)
    (hp : p <+: u) : schemeSplitFails p := by
  intro pr hpr
  obtain ⟨h1, h2⟩ := splitFirst_eq_some ':' p pr hpr
  obtain ⟨rest, hrest⟩ := hp
  have hu : splitFirst ':' u = some (pr.1, pr.2 ++ rest) := by
    rw [← hrest, h1, List.append_assoc, List.cons_append]
    exact splitFirst_append ':' pr.1 (pr.2 ++ rest) h2
  exact h (pr.1, pr.2 ++ rest) hu

/-- Exhaustive behaviour of the scheme-splitting stage. -/
theorem pySchemeSplit_cases (u d : List Char) :
    (∃ pr, splitFirst ':' u = some pr ∧ validSchemeSplit pr.1 = true ∧
      pySchemeSplit u d = (pr.1.map lowerChar, pr.2) ∧ u = pr.1 ++ ':' :: pr.2) ∨
    (schemeSplitFails u ∧ pySchemeSplit u d = (d, u)) := by
  cases hs : splitFirst ':' u with
  | none =>
    refine Or.inr ⟨fun pr hpr => ?_, by simp [pySchemeSplit, hs]⟩
    rw [hs] at hpr
    exact Option.noConfusion hpr
  | some pr =>
    by_cases hv : validSchemeSplit pr.1 = true
    · exact Or.inl ⟨pr, rfl, hv, by simp [pySchemeSplit, hs, hv],
        (splitFirst_eq_some ':' u pr hs).1⟩
    · have hv2 : validSchemeSplit pr.1 = false := by
        cases hb : validSchemeSplit pr.1 with
        | true => exact absurd hb hv
        | false => rfl
      refine Or.inr ⟨fun pr2 hpr2 => ?_, by simp [pySchemeSplit, hs, hv2]⟩
      rw [hs] at hpr2
      rw [Option.some.inj hpr2] at hv2
      exact hv2

/-- A well-formed scheme contains no colon. -/
theorem valid_no_colon (s : List Char) (h : validSchemeSplit s = true) : ':' ∉ s := by
  match s with
  | [] => exact absurd h (by simp [validSchemeSplit])
  | c :: cs =>
    rw [validSchemeSplit, Bool.and_eq_true] at h
    intro hm
    rcases List.mem_cons.mp hm with he | hm2
    · exact alpha_ne_colon c h.1 he.symm
    · exact absurd (List.all_eq_true.mp h.2 ':' hm2) (by decide)

/-- Lower-casing preserves scheme well-formedness. -/
theorem validSchemeSplit_map_lower (s : List Char) (h : validSchemeSplit s = true) :
    validSchemeSplit (s.map lowerChar) = true := by
  match s with
  | [] => exact absurd h (by simp [validSchemeSplit])
  | c :: cs =>
    rw [validSchemeSplit, Bool.and_eq_true] at h
    rw [List.map_cons, validSchemeSplit, Bool.and_eq_true]
    refine ⟨isAlphaAscii_lowerChar c h.1, ?_⟩
    rw [List.all_eq_true]
    intro x hx
    obtain ⟨y, hy, rfl⟩ := List.mem_map.mp hx
    exact isSchemeChar_lowerChar y (List.all_eq_true.mp h.2 y hy)

/-- A well-formed, lower-case-fixed scheme followed by a colon splits off
exactly. -/
theorem pySchemeSplit_exact (s rest d : List Char)
    (hv : validSchemeSplit s = true) (hl : s.map lowerChar = s) :
    pySchemeSplit (s ++ ':' :: rest) d = (s, rest) := by
  have hc := valid_no_colon s hv
  simp [pySchemeSplit, splitFirst_append ':' s rest hc, hv, hl]

/-- A semicolon-free list is params-free. -/
theorem paramsFree_of_not_mem (p : List Char) (h : ';' ∉ p) : paramsFree p := by
  rw [paramsFree]
  cases hs : splitLastSlash p with
  | some bp =>
    obtain ⟨h1, _⟩ := splitLastSlash_eq_some p bp hs
    intro hm
    exact h (h1 ▸ List.mem_append_right bp.1 (List.mem_cons_of_mem '/' hm))
  | none => exact h

/-- On a params-free path, `_splitparams` strips nothing. -/
theorem splitparams_of_paramsFree (p : List Char) (h : paramsFree p) :
    splitparams p = (p, []) := by
  rw [paramsFree] at h
  cases hs : splitLastSlash p with
  | some bp =>
    rw [hs] at h
    simp only [splitparams, hs]
    rw [splitFirst_eq_none ';' bp.2 h]
  | none =>
    rw [hs] at h
    simp only [splitparams, hs]
    rw [splitFirst_eq_none ';' p h]

/-- The path kept by `_splitparams` is a prefix of the input path. -/
theorem splitparams_fst_prefix (p : List Char) : (splitparams p).1 <+: p := by
  cases hs : splitLastSlash p with
  | some bp =>
    obtain ⟨h1, h2⟩ := splitLastSlash_eq_some p bp hs
    cases ha : splitFirst ';' bp.2 with
    | some ab =>
      obtain ⟨ha1, _⟩ := splitFirst_eq_some ';' bp.2 ab ha
      simp only [splitparams, hs, ha]
      refine ⟨';' :: ab.2, ?_⟩
      rw [h1, ha1]
      simp
    | none =>
      simp only [splitparams, hs, ha]
      exact List.prefix_refl p
  | none =>
    cases ha : splitFirst ';' p with
    | some ab =>
      obtain ⟨ha1, _⟩ := splitFirst_eq_some ';' p ab ha
      simp only [splitparams, hs, ha]
      exact ⟨';' :: ab.2, ha1.symm⟩
    | none =>
      simp only [splitparams, hs, ha]
      exact List.prefix_refl p

/-- The path kept by `_splitparams` is params-free. -/
theorem splitparams_fst_paramsFree (p : List Char) : paramsFree (splitparams p).1 := by
  cases hs : splitLastSlash p with
  | some bp =>
    obtain ⟨h1, h2⟩ := splitLastSlash_eq_some p bp hs
    cases ha : splitFirst ';' bp.2 with
    | some ab =>
      obtain ⟨ha1, ha2⟩ := splitFirst_eq_some ';' bp.2 ab ha
      have hslash : '/' ∉ ab.1 := fun hm =>
        h2 (ha1 ▸ List.mem_append_left (';' :: ab.2) hm)
      simp only [splitparams, hs, ha]
      rw [paramsFree, splitLastSlash_append bp.1 ab.1 hslash]
      exact ha2
    | none =>
      simp only [splitparams, hs, ha]
      rw [paramsFree, hs]
      exact not_mem_of_splitFirst_eq_none ';' bp.2 ha
  | none =>
    cases ha : splitFirst ';' p with
    | some ab =>
      obtain ⟨ha1, ha2⟩ := splitFirst_eq_some ';' p ab ha
      have hnp : '/' ∉ p := fun hm => by
        obtain ⟨bp, hbp⟩ := splitLastSlash_isSome p hm
        rw [hs] at hbp
        exact Option.noConfusion hbp
      have hslash : '/' ∉ ab.1 := fun hm =>
        hnp (ha1 ▸ List.mem_append_left (';' :: ab.2) hm)
      simp only [splitparams, hs, ha]
      rw [paramsFree, splitLastSlash_eq_none ab.1 hslash]
      exact ha2
    | none =>
      simp only [splitparams, hs, ha]
      exact paramsFree_of_not_mem p (not_mem_of_splitFirst_eq_none ';' p ha)

/-- Cutting a list that starts with a non-`'#'` keeps that head. -/
theorem pyCutFragment_fst_cons (x : Char) (t : List Char) (h : ¬ x = '#') :
    ∃ q, (pyCutFragment (x :: t)).1 = x :: q := by
  cases hs : splitFirst '#' t with
  | none =>
    rw [pyCutFragment, splitFirst, if_neg h, hs]
    exact ⟨t, rfl⟩
  | some pr =>
    rw [pyCutFragment, splitFirst, if_neg h, hs]
    exact ⟨pr.1, rfl⟩

/-- Cutting a list that starts with a non-`'?'` keeps that head. -/
theorem pyCutQuery_fst_cons (x : Char) (t : List Char) (h : ¬ x = '?') :
    ∃ q, (pyCutQuery (x :: t)).1 = x :: q := by
  cases hs : splitFirst '?' t with
  | none =>
    rw [pyCutQuery, splitFirst, if_neg h, hs]
    exact ⟨t, rfl⟩
  | some pr =>
    rw [pyCutQuery, splitFirst, if_neg h, hs]
    exact ⟨pr.1, rfl⟩

/-- Cutting at a leading `'#'` leaves an empty head part. -/
theorem pyCutFragment_cons_hash (t : List Char) : pyCutFragment ('#' :: t) = ([], t) := by
  rw [pyCutFragment, splitFirst, if_pos rfl]

/-- Cutting at a leading `'?'` leaves an empty head part. -/
theorem pyCutQuery_cons_q (t : List Char) : pyCutQuery ('?' :: t) = ([], t) := by
  rw [pyCutQuery, splitFirst, if_pos rfl]

/-- After the netloc stage the remaining path (fragment and query
removed) is empty or starts with a slash. -/
theorem path_shape_after_netloc (r2 : List Char)
    (h : r2 = [] ∨ ∃ d t, r2 = d :: t ∧ isDelim d = true) :
    (pyCutQuery (pyCutFragment r2).1).1 = [] ∨
      ∃ t, (pyCutQuery (pyCutFragment r2).1).1 = '/' :: t := by
  rcases h with he | ⟨d, t, he, hd⟩
  · subst he
    exact Or.inl rfl
  · subst he
    have hd3 : d = '/' ∨ d = '?' ∨ d = '#' := by
      simp [isDelim] at hd
      tauto
    rcases hd3 with rfl | rfl | rfl
    · obtain ⟨q1, hq1⟩ := pyCutFragment_fst_cons '/' t (by decide)
      rw [hq1]
      obtain ⟨q2, hq2⟩ := pyCutQuery_fst_cons '/' q1 (by decide)
      exact Or.inr ⟨q2, hq2⟩
    · obtain ⟨q1, hq1⟩ := pyCutFragment_fst_cons '?' t (by decide)
      rw [hq1, pyCutQuery_cons_q]
      exact Or.inl rfl
    · rw [pyCutFragment_cons_hash]
      exact Or.inl rfl

/-- Invariants of the netloc, fragment and query stages, for any input to
the netloc stage. -/
theorem urlsplit_stages_inv (rest : List Char) :
    (∀ c ∈ (pyNetlocSplit rest).1, isDelim c = false) ∧
    '?' ∉ (pyCutQuery (pyCutFragment (pyNetlocSplit rest).2).1).1 ∧
    '#' ∉ (pyCutQuery (pyCutFragment (pyNetlocSplit rest).2).1).1 ∧
    ((pyNetlocSplit rest).1 ≠ [] →
      (pyCutQuery (pyCutFragment (pyNetlocSplit rest).2).1).1 = [] ∨
      ∃ t, (pyCutQuery (pyCutFragment (pyNetlocSplit rest).2).1).1 = '/' :: t) ∧
    ((pyCutQuery (pyCutFragment (pyNetlocSplit rest).2).1).1 <+: rest ∨
      (pyCutQuery (pyCutFragment (pyNetlocSplit rest).2).1).1 = [] ∨
      ∃ t, (pyCutQuery (pyCutFragment (pyNetlocSplit rest).2).1).1 = '/' :: t) := by
  by_cases hb : rest.take 2 = ['/', '/']
  · rw [pyNetlocSplit, if_pos hb]
    have hsp := takeUntilDelims_spec (rest.drop 2)
    have hshape := path_shape_after_netloc (takeUntilDelims (rest.drop 2)).2 hsp.2.1
    have ha := pyCutFragment_fst (takeUntilDelims (rest.drop 2)).2
    have hq := pyCutQuery_fst (pyCutFragment (takeUntilDelims (rest.drop 2)).2).1
    exact ⟨hsp.1, hq.1, fun hm => ha.1 (hq.2.subset hm), fun _ => hshape, Or.inr hshape⟩
  · rw [pyNetlocSplit, if_neg hb]
    have ha := pyCutFragment_fst rest
    have hq := pyCutQuery_fst (pyCutFragment rest).1
    exact ⟨fun c hc => absurd hc (List.not_mem_nil c), hq.1,
      fun hm => ha.1 (hq.2.subset hm), fun hne => absurd rfl hne,
      Or.inl (hq.2.trans ha.2)⟩

/-- The components of `urlsplit`, written out. -/
theorem urlsplitL_def (u d : List Char) :
    urlsplitL u d =
      ⟨(pySchemeSplit u d).1,
       (pyNetlocSplit (pySchemeSplit u d).2).1,
       (pyCutQuery (pyCutFragment (pyNetlocSplit (pySchemeSplit u d).2).2).1).1,
       (pyCutQuery (pyCutFragment (pyNetlocSplit (pySchemeSplit u d).2).2).1).2,
       (pyCutFragment (pyNetlocSplit (pySchemeSplit u d).2).2).2⟩ := rfl

/-- The shape invariant of `urlsplit(u, '')` needed for an exact
re-parse. -/
theorem urlsplitL_inv (u : List Char) :
    ((urlsplitL u []).scheme = [] ∨
      (validSchemeSplit (urlsplitL u []).scheme = true ∧
        (urlsplitL u []).scheme.map lowerChar = (urlsplitL u []).scheme)) ∧
    ((urlsplitL u []).scheme = [] → schemeSplitFails (urlsplitL u []).path) ∧
    (∀ c ∈ (urlsplitL u []).netloc, isDelim c = false) ∧
    '?' ∉ (urlsplitL u []).path ∧
    '#' ∉ (urlsplitL u []).path ∧
    ((urlsplitL u []).netloc ≠ [] →
      (urlsplitL u []).path = [] ∨ ∃ t, (urlsplitL u []).path = '/' :: t) := by
  have hst := urlsplit_stages_inv (pySchemeSplit u []).2
  rcases pySchemeSplit_cases u [] with ⟨pr, hsf, hv, heq, hu⟩ | ⟨hfail, heq⟩
  · rw [urlsplitL_def, heq]
    rw [heq] at hst
    simp only at hst ⊢
    obtain ⟨j1, j2, j3, j4, j5⟩ := hst
    refine ⟨Or.inr ⟨validSchemeSplit_map_lower pr.1 hv, map_lowerChar_idem pr.1⟩,
      ?_, j1, j2, j3, j4⟩
    intro hemp
    have hnil : pr.1 = [] := by simpa using hemp
    rw [hnil] at hv
    exact absurd hv (by simp [validSchemeSplit])
  · rw [urlsplitL_def, heq]
    rw [heq] at hst
    simp only at hst ⊢
    obtain ⟨j1, j2, j3, j4, j5⟩ := hst
    refine ⟨Or.inl (by simp), ?_, j1, j2, j3, j4⟩
    intro _
    rcases j5 with hpre | hnil | ⟨t, ht⟩
    · exact schemeSplitFails_prefix u _ hfail hpre
    · rw [hnil]; exact schemeSplitFails_nil
    · rw [ht]; exact schemeSplitFails_cons_slash t

/-- `urlparse` when the params split fires. -/
theorem urlparseL_def_pos (u d : List Char)
    (h : (urlsplitL u d).scheme ∈ uses_params ∧ ';' ∈ (urlsplitL u d).path) :
    urlparseL u d =
      ⟨(urlsplitL u d).scheme, (urlsplitL u d).netloc,
       (splitparams (urlsplitL u d).path).1, (splitparams (urlsplitL u d).path).2,
       (urlsplitL u d).query, (urlsplitL u d).fragment⟩ := by
  simp only [urlparseL, if_pos h]

/-- `urlparse` when the params split does not fire. -/
theorem urlparseL_def_neg (u d : List Char)
    (h : ¬ ((urlsplitL u d).scheme ∈ uses_params ∧ ';' ∈ (urlsplitL u d).path)) :
    urlparseL u d =
      ⟨(urlsplitL u d).scheme, (urlsplitL u d).netloc, (urlsplitL u d).path, [],
       (urlsplitL u d).query, (urlsplitL u d).fragment⟩ := by
  simp only [urlparseL, if_neg h]

/-- The `(scheme, netloc, path)` triple of `urlparse(u, '')` satisfies the
re-parse invariant. -/
theorem urlparseL_inv (u : List Char) :
    NormInv (urlparseL u []).scheme (urlparseL u []).netloc (urlparseL u []).path := by
  obtain ⟨i1, i2, i3, i4, i5, i6⟩ := urlsplitL_inv u
  by_cases hc : (urlsplitL u []).scheme ∈ uses_params ∧ ';' ∈ (urlsplitL u []).path
  · rw [urlparseL_def_pos u [] hc]
    simp only
    have hpre := splitparams_fst_prefix (urlsplitL u []).path
    refine ⟨i1, ?_, i3, ?_, ?_, ?_, ?_⟩
    · intro hemp
      exact schemeSplitFails_prefix _ _ (i2 hemp) hpre
    · exact fun hm => i4 (hpre.subset hm)
    · exact fun hm => i5 (hpre.subset hm)
    · intro hne
      rcases i6 hne with he | ⟨t, ht⟩
      · rw [he]
        rw [he] at hpre
        exact Or.inl (List.prefix_nil.mp hpre)
      · rw [ht]
        rw [ht] at hpre
        cases hp2 : (splitparams ('/' :: t)).1 with
        | nil => exact Or.inl rfl
        | cons c q =>
          rw [hp2] at hpre
          have hcq := (List.cons_prefix_cons.mp hpre).1
          refine Or.inr ⟨q, ?_⟩
          rw [hcq]
    · intro _
      exact splitparams_fst_paramsFree _

  · rw [urlparseL_def_neg u [] hc]
    simp only
    refine ⟨i1, i2, i3, i4, i5, i6, ?_⟩
    intro hup
    have hnm : ';' ∉ (urlsplitL u []).path := fun hm => hc ⟨hup, hm⟩
    exact paramsFree_of_not_mem _ hnm

/-- A well-formed scheme is nonempty. -/
theorem valid_ne_nil (s : List Char) (h : validSchemeSplit s = true) : s ≠ [] := by
  intro he
  rw [he] at h
  exact absurd h (by simp [validSchemeSplit])

/-- `urlsplit` recovers the exact triple from its `urlunsplit` under the
invariant. -/
theorem unsplit_roundtrip (s n p : List Char) (inv : NormInv s n p) :
    urlsplitL (urlunsplitL s n p [] []) [] = ⟨s, n, p, [], []⟩ := by
  by_cases hcond : n ≠ [] ∨ (p ≠ [] ∧ p.take 2 = ['/', '/'])
  · have hslash : p = [] ∨ ∃ t, p = '/' :: t := by
      rcases hcond with hn | ⟨hp, ht⟩
      · exact inv.netloc_path hn
      · cases p with
        | nil => exact absurd rfl hp
        | cons c q =>
          rw [List.take_succ_cons] at ht
          have hc2 := (List.cons.injEq c (q.take 1) '/' ['/']).mp ht
          exact Or.inr ⟨q, by rw [hc2.1]⟩
    have hinner : ¬ (p ≠ [] ∧ p.take 1 ≠ ['/']) := by
      rcases hslash with he | ⟨t, ht⟩
      · exact fun hx => hx.1 he
      · exact fun hx => hx.2 (by rw [ht]; rfl)
    have hshape : n ++ p = n ++ p ∧ (p = [] ∨ ∃ d t2, p = d :: t2 ∧ isDelim d = true) := by
      refine ⟨rfl, ?_⟩
      rcases hslash with he | ⟨t, ht⟩
      · exact Or.inl he
      · exact Or.inr ⟨'/', t, ht, by decide⟩
    have hv : urlunsplitL s n p [] [] =
        (if s ≠ [] then s ++ ':' :: ('/' :: '/' :: (n ++ p))
         else ('/' :: '/' :: (n ++ p))) := by
      simp only [urlunsplitL, if_pos hcond, if_neg hinner]
      simp
    rcases inv.scheme_ok with hse | ⟨hv1, hv2⟩
    · subst hse
      rw [if_neg (by simp)] at hv
      rw [hv, urlsplitL_def,
        pySchemeSplit_of_fails _ [] (schemeSplitFails_cons_slash _)]
      simp only
      rw [pyNetlocSplit,
        if_pos (show List.take 2 ('/' :: '/' :: (n ++ p)) = ['/', '/'] from rfl)]
      have hdrop : List.drop 2 ('/' :: '/' :: (n ++ p)) = n ++ p := rfl
      rw [hdrop, takeUntilDelims_append n p inv.netloc_clean hshape.2]
      simp only
      rw [pyCutFragment_of_not_mem p inv.path_no_f]
      simp only
      rw [pyCutQuery_of_not_mem p inv.path_no_q]
    · have hsne : s ≠ [] := valid_ne_nil s hv1
      rw [if_pos hsne] at hv
      rw [hv, urlsplitL_def, pySchemeSplit_exact s _ [] hv1 hv2]
      simp only
      rw [pyNetlocSplit,
        if_pos (show List.take 2 ('/' :: '/' :: (n ++ p)) = ['/', '/'] from rfl)]
      have hdrop : List.drop 2 ('/' :: '/' :: (n ++ p)) = n ++ p := rfl
      rw [hdrop, takeUntilDelims_append n p inv.netloc_clean hshape.2]
      simp only
      rw [pyCutFragment_of_not_mem p inv.path_no_f]
      simp only
      rw [pyCutQuery_of_not_mem p inv.path_no_q]
  · have hps := not_or.mp hcond
    have hnn : n = [] := not_not.mp hps.1
    have hnt : ¬ p.take 2 = ['/', '/'] := by
      intro ht
      apply hps.2
      refine ⟨?_, ht⟩
      intro he
      rw [he] at ht
      exact List.noConfusion ht
    have hnsplit : pyNetlocSplit p = ([], p) := by
      rw [pyNetlocSplit, if_neg hnt]
    have hv : urlunsplitL s n p [] [] = (if s ≠ [] then s ++ ':' :: p else p) := by
      simp only [urlunsplitL, if_neg hcond]
      simp
    rcases inv.scheme_ok with hse | ⟨hv1, hv2⟩
    · subst hse
      rw [if_neg (by simp)] at hv
      rw [hv, urlsplitL_def,
        pySchemeSplit_of_fails _ [] (inv.scheme_empty_ok rfl)]
      simp only
      rw [hnsplit]
      simp only
      rw [pyCutFragment_of_not_mem p inv.path_no_f]
      simp only
      rw [pyCutQuery_of_not_mem p inv.path_no_q, hnn]
    · have hsne : s ≠ [] := valid_ne_nil s hv1
      rw [if_pos hsne] at hv
      rw [hv, urlsplitL_def, pySchemeSplit_exact s _ [] hv1 hv2]
      simp only
      rw [hnsplit]
      simp only
      rw [pyCutFragment_of_not_mem p inv.path_no_f]
      simp only
      rw [pyCutQuery_of_not_mem p inv.path_no_q, hnn]

/-- `urlparse` recovers the exact parse from the `urlunsplit` of an
invariant triple (and splits off no params). -/
theorem parse_roundtrip (s n p : List Char) (inv : NormInv s n p) :
    urlparseL (urlunsplitL s n p [] []) [] = ⟨s, n, p, [], [], []⟩ := by
  have hrt := unsplit_roundtrip s n p inv
  by_cases hc : s ∈ uses_params ∧ ';' ∈ p
  · rw [urlparseL_def_pos _ [] (by rw [hrt]; exact hc), hrt]
    simp only
    rw [splitparams_of_paramsFree p (inv.params_ok hc.1)]
  · rw [urlparseL_def_neg _ [] (by rw [hrt]; exact hc), hrt]

/-- `normalize_url` is the query-, fragment- and params-free
reassembly. -/
theorem normalize_urlL_eq_unsplit (u : List Char) :
    normalize_urlL u =
      urlunsplitL (urlparseL u []).scheme (urlparseL u []).netloc
        (urlparseL u []).path [] [] := by
  rw [normalize_urlL, urlunparseL]
  simp

/-- Idempotence of normalization at the character-list level. -/
theorem normalize_urlL_idem (u : List Char) :
    normalize_urlL (normalize_urlL u) = normalize_urlL u := by
  have inv := urlparseL_inv u
  rw [normalize_urlL_eq_unsplit u,
    normalize_urlL_eq_unsplit
      (urlunsplitL (urlparseL u []).scheme (urlparseL u []).netloc
        (urlparseL u []).path [] []),
    parse_roundtrip _ _ _ inv]

/-- C8: URL normalization is idempotent —
`normalize_url (normalize_url u) = normalize_url u` for every URL string
`u`. -/
theorem C8_normalize_idempotent (u : String) :
    normalize_url (normalize_url u) = normalize_url u := by
  show (normalize_urlL ((normalize_urlL u.toList).asString).toList).asString =
    (normalize_urlL u.toList).asString
  have hts : ((normalize_urlL u.toList).asString).toList = normalize_urlL u.toList := rfl
  rw [hts, normalize_urlL_idem]

end IndexParser
